import Mathlib

/-!
Verification development for the json-versioning repository.

The repository is a JSON document versioning application. Its core logic
lives in `src/services/api.ts` (an in-memory mock store: `createVersion`,
`getVersions`, `mergeVersions`, `getVersion`, `getDocument`) and in
`src/components/JsonEditor.tsx` (dirty tracking, auto-save, manual save).
Structural diffing is delegated to the third-party `jsondiffpatch` library,
configured with `objectHash = obj.id || JSON.stringify(obj)`.

This file shallowly embeds those parts in Lean:
* a `Tree` model of JSON-like values, and a structural diff engine with
  `diff` / `applyPatch` (the jsondiffpatch library itself is not part of the
  repository, so the engine is modelled from the specification, §4.1-§4.3);
* the mock API store state and its operations, translated line by line from
  `src/services/api.ts`;
* the editor save logic, translated from `src/components/JsonEditor.tsx`.

Nondeterministic inputs of the source (`Math.random`-based id generation,
`new Date()` timestamps, and `JSON.parse`) are passed in explicitly: ids and
timestamps as `String` arguments, parsing as a `parse : String → Option Tree`
function argument.
-/

namespace JsonVersioning

/-- JSON-like tree value (spec §3 Tree): null, bool, number, string, ordered
list, ordered map with (intended) unique string keys. Numbers are embedded as
integers; the diff engine only ever compares them for equality. -/
inductive Tree where
  | null
  | bool (b : Bool)
  | num (n : Int)
  | str (s : String)
  | list (xs : List Tree)
  | map (kvs : List (String × Tree))

instance : Inhabited Tree := ⟨Tree.null⟩

/-- Path step into a `Tree`: a map key or a list index (spec §3 Patch:
"`path` is a sequence of map-key/list-index steps from the tree root"). -/
inductive Step where
  | key (k : String)
  | idx (i : Nat)
deriving DecidableEq

/-- Patch operation (spec §3 Patch): Add, Remove, Replace, Move. `add` and
`remove` carry the spec path split as parent path plus final step (the spec
path is `parent ++ [entry]`); `move` is for list elements, so its spec paths
`fromPath`/`toPath` share the parent path of the list and differ in the last
index: `fromPath = parent ++ [idx src]`, `toPath = parent ++ [idx dst]`. -/
inductive Op where
  | add (parent : List Step) (entry : Step) (v : Tree)
  | remove (parent : List Step) (entry : Step) (old : Tree)
  | replace (path : List Step) (old new : Tree)
  | move (parent : List Step) (src dst : Nat)

/-- Error raised by `applyPatch` when an operation's expected old value or
path does not match the tree being patched (spec §4.3 PatchConflict). -/
inductive PatchError where
  | conflict
deriving DecidableEq

/-- First value bound to key `k` in an association list (JS object property
read on the ordered map representation). -/
def lookupField (k : String) : List (String × Tree) → Option Tree
  | [] => none
  | p :: rest => if p.1 == k then some p.2 else lookupField k rest

/-- Replace the value of the first binding of key `k`. -/
def setField (k : String) (v : Tree) : List (String × Tree) → List (String × Tree)
  | [] => []
  | p :: rest => if p.1 == k then (p.1, v) :: rest else p :: setField k v rest

/-- Remove the first binding of key `k`. -/
def eraseField (k : String) : List (String × Tree) → List (String × Tree)
  | [] => []
  | p :: rest => if p.1 == k then rest else p :: eraseField k rest

/-- Key list contains no duplicates (maps are well-formed, spec §3). -/
def nodupKeys : List String → Bool
  | [] => true
  | k :: rest => !(rest.contains k) && nodupKeys rest

theorem sizeOf_snd_le (p : String × Tree) : sizeOf p.2 ≤ sizeOf p := by
  obtain ⟨k, v⟩ := p
  simp

/-- Canonical serialization of a `Tree`, used as the identity-hash fallback
(spec §4.1: "the hash is the canonical serialization of the whole value").
String escaping is not modelled; only determinism of the hash matters. -/
def serialize : Tree → String
  | .null => "null"
  | .bool b => cond b "true" "false"
  | .num n => toString n
  | .str s => "\"" ++ s ++ "\""
  | .list xs =>
      "[" ++ String.intercalate "," (xs.attach.map (fun pp => serialize pp.val)) ++ "]"
  | .map kvs =>
      "\x7b" ++ String.intercalate ","
        (kvs.attach.map (fun pp => "\"" ++ pp.val.1 ++ "\":" ++ serialize pp.val.2))
      ++ "\x7d"
termination_by t => sizeOf t
decreasing_by
  all_goals have h1 := List.sizeOf_lt_of_mem pp.property
  all_goals try have h2 := sizeOf_snd_le pp.val
  all_goals simp at *
  all_goals omega

/-- Identity hash of a tree used to match list elements (spec §4.1: if a Map
contains a key `"id"`, the hash is that id value; otherwise the canonical
serialization of the whole value; mirrors the source's
`objectHash: (obj) => obj.id || JSON.stringify(obj)` in `api.ts:24-27`). -/
def objectHash (t : Tree) : String :=
  match t with
  | .map kvs =>
      match lookupField "id" kvs with
      | some idv => serialize idv
      | none => serialize t
  | _ => serialize t

/-- Number of occurrences of `h` in `l`. -/
def countOcc (l : List String) (h : String) : Nat :=
  (l.filter (fun x => x == h)).length

/-- Index of the `(c+1)`-th occurrence of `h` in `l`, if it exists. -/
def nthOccIdx : List String → String → Nat → Option Nat
  | [], _, _ => none
  | x :: rest, h, c =>
      if x == h then
        match c with
        | 0 => some 0
        | c + 1 => (nthOccIdx rest h c).map (· + 1)
      else (nthOccIdx rest h c).map (· + 1)

/-- Greedy alignment of list elements by identity hash, in order of
appearance (spec §4.2 Lists): the `j`-th element of the new list is matched
to the old-list element holding the same hash occurrence number, if any. -/
def partnerIdx (hx hy : List String) (j : Nat) : Option Nat :=
  match hy[j]? with
  | none => none
  | some h => nthOccIdx hx h (countOcc (hy.take j) h)

/-- Move operations that reorder the matched elements into their new relative
order. `sim` is the simulated working list of tokens, `tgt` the desired final
token order, `j` the next final position to fix; each emitted `move` is
computed against the simulated state at its point of application, exactly as
`applyPatch` will replay it. -/
def movesAux : List Nat → List Nat → Nat → List Op
  | _, [], _ => []
  | sim, t :: ts, j =>
      let i := sim.indexOf t
      if i = j then movesAux sim ts (j + 1)
      else Op.move [] i j :: movesAux ((sim.eraseIdx i).insertIdx j t) ts (j + 1)

/-- Prefix an operation's path with one step (spec §4.2: "recurse and prefix
resulting ops with this key"). -/
def prefixOp (s : Step) : Op → Op
  | .add parent entry v => .add (s :: parent) entry v
  | .remove parent entry old => .remove (s :: parent) entry old
  | .replace path old new => .replace (s :: path) old new
  | .move parent src dst => .move (s :: parent) src dst

/-- Scalar (or mixed-type) equality test used at non-container diff nodes. -/
def scalarEq : Tree → Tree → Bool
  | .null, .null => true
  | .bool x, .bool y => x == y
  | .num x, .num y => x == y
  | .str x, .str y => x == y
  | _, _ => false

/-- All matched pairs `(oldIndex, newIndex)` of the greedy hash alignment,
in new-index order. -/
def matchedPairs (hx hy : List String) : List (Nat × Nat) :=
  (List.range hy.length).filterMap
    (fun j => (partnerIdx hx hy j).map (fun i => (i, j)))

/-- Remove operations for the unmatched old list elements, by descending
original index (so earlier removals do not shift later ones). -/
def listRemoves (xs : List Tree) (matchedOld : List Nat) : List Op :=
  ((xs.enum.filter (fun p => !(matchedOld.contains p.1))).reverse).map
    (fun p => Op.remove [] (.idx p.1) p.2)

/-- Move operations reordering the matched old elements into new order. -/
def listMoves (xs : List Tree) (matchedOld : List Nat) : List Op :=
  movesAux ((List.range xs.length).filter (fun i => matchedOld.contains i)) matchedOld 0

/-- Add operations for the unmatched new list elements, by ascending final
index. -/
def listAdds (ys : List Tree) (matched : List (Nat × Nat)) : List Op :=
  (ys.enum.filter (fun p => !(matched.any (fun q => q.2 == p.1)))).map
    (fun p => Op.add [] (.idx p.1) p.2)

/-- The matched element pairs themselves, each with its final index: the
inputs of the per-element recursive diffs. -/
def subPairs (xs ys : List Tree) (matched : List (Nat × Nat)) :
    List (Tree × Tree × Nat) :=
  matched.filterMap (fun p =>
    match xs[p.1]?, ys[p.2]? with
    | some o, some n => some (o, n, p.2)
    | _, _ => none)

theorem sizeOf_of_mem_subPairs {xs ys : List Tree} {matched : List (Nat × Nat)}
    {q : Tree × Tree × Nat} (h : q ∈ subPairs xs ys matched) :
    sizeOf q.2.1 < sizeOf ys := by
  obtain ⟨p, _, hf⟩ := List.mem_filterMap.mp h
  cases h1 : xs[p.1]? with
  | none => rw [h1] at hf; simp at hf
  | some o =>
      cases h2 : ys[p.2]? with
      | none => rw [h1, h2] at hf; simp at hf
      | some n =>
          rw [h1, h2] at hf
          simp at hf
          have := List.sizeOf_lt_of_mem (List.getElem?_mem h2)
          rw [← hf]
          simp
          omega

/-- Structural diff of two trees (spec §4.2), modelled from the spec because
the engine used by the source (`jsondiffpatch`, configured in `api.ts:24-27`)
is a third-party library whose code is not part of this repository.
Scalars: equal gives the empty patch, unequal a single Replace. Maps: keys
are visited in the new map's insertion order (Add for new-only keys, recursion
with the key prefixed for common keys), then old-only keys are removed.
Lists: elements are aligned by identity hash greedily in order of appearance;
unmatched old elements are removed (descending index), matched elements whose
relative order changed are moved, unmatched new elements are added at their
final positions, and matched pairs recurse with the final index prefixed.
Mixed-type changes are a single Replace. -/
def diff (a b : Tree) : List Op :=
  match a, b with
  | .map akvs, .map bkvs =>
      (bkvs.attach.flatMap (fun pp =>
        match lookupField pp.val.1 akvs with
        | none => [Op.add [] (.key pp.val.1) pp.val.2]
        | some ov => (diff ov pp.val.2).map (prefixOp (.key pp.val.1))))
      ++ (akvs.filter (fun p => (lookupField p.1 bkvs).isNone)).map
           (fun p => Op.remove [] (.key p.1) p.2)
  | .list xs, .list ys =>
      let matched := matchedPairs (xs.map objectHash) (ys.map objectHash)
      listRemoves xs (matched.map Prod.fst)
        ++ listMoves xs (matched.map Prod.fst)
        ++ listAdds ys matched
        ++ (subPairs xs ys matched).attach.flatMap
             (fun qq => (diff qq.val.1 qq.val.2.1).map (prefixOp (.idx qq.val.2.2)))
  | a, b => if scalarEq a b then [] else [Op.replace [] a b]
termination_by sizeOf b
decreasing_by
  · have h1 := List.sizeOf_lt_of_mem pp.property
    have h2 := sizeOf_snd_le pp.val
    simp at *
    omega
  · have h3 := sizeOf_of_mem_subPairs qq.property
    simp at *
    omega

/-- Deep equality of trees in the JavaScript sense: lists are compared
pointwise in order, maps are compared as key-value collections ignoring key
insertion order (JS deep equality does not observe object key order). -/
def eqv (a b : Tree) : Bool :=
  match a, b with
  | .list xs, .list ys =>
      xs.length == ys.length &&
      (xs.zip ys).attach.all (fun pp => eqv pp.val.1 pp.val.2)
  | .map xs, .map ys =>
      xs.length == ys.length &&
      xs.attach.all (fun pp =>
        match lookupField pp.val.1 ys with
        | some w => eqv pp.val.2 w
        | none => false)
  | a, b => scalarEq a b
termination_by sizeOf a
decreasing_by
  · obtain ⟨⟨x, y⟩, hp⟩ := pp
    have h1 := List.sizeOf_lt_of_mem (List.of_mem_zip hp).1
    simp at *
    omega
  · have h1 := List.sizeOf_lt_of_mem pp.property
    have h2 := sizeOf_snd_le pp.val
    simp at *
    omega

/-- Well-formed tree: every map has pairwise distinct keys (spec §3
invariant "Map keys unique"). -/
def wf (t : Tree) : Bool :=
  match t with
  | .list xs => xs.attach.all (fun pp => wf pp.val)
  | .map kvs => nodupKeys (kvs.map Prod.fst) && kvs.attach.all (fun pp => wf pp.val.2)
  | _ => true
termination_by sizeOf t
decreasing_by
  · have h1 := List.sizeOf_lt_of_mem pp.property
    simp at *
    omega
  · have h1 := List.sizeOf_lt_of_mem pp.property
    have h2 := sizeOf_snd_le pp.val
    simp at *
    omega

theorem attach_all (l : List α) (f : α → Bool) :
    l.attach.all (fun pp => f pp.val) = l.all f := by
  rw [Bool.eq_iff_iff]
  simp [List.all_eq_true]

theorem attach_flatMap (l : List α) (f : α → List β) :
    l.attach.flatMap (fun pp => f pp.val) = l.flatMap f := by
  simp

/-- Clean equation for `eqv` on lists. -/
theorem eqv_list (xs ys : List Tree) :
    eqv (.list xs) (.list ys)
      = (xs.length == ys.length && (xs.zip ys).all (fun p => eqv p.1 p.2)) := by
  rw [eqv]
  congr 1
  rw [← attach_all (xs.zip ys) (fun p => eqv p.1 p.2)]

/-- Clean equation for `eqv` on maps. -/
theorem eqv_map (xs ys : List (String × Tree)) :
    eqv (.map xs) (.map ys)
      = (xs.length == ys.length &&
          xs.all (fun p =>
            match lookupField p.1 ys with
            | some w => eqv p.2 w
            | none => false)) := by
  rw [eqv]
  congr 1
  rw [← attach_all xs (fun p =>
      match lookupField p.1 ys with
      | some w => eqv p.2 w
      | none => false)]

/-- Clean equation for `wf` on lists. -/
theorem wf_list (xs : List Tree) : wf (.list xs) = xs.all wf := by
  rw [wf]
  rw [← attach_all xs wf]

/-- Clean equation for `wf` on maps. -/
theorem wf_map (kvs : List (String × Tree)) :
    wf (.map kvs) = (nodupKeys (kvs.map Prod.fst) && kvs.all (fun p => wf p.2)) := by
  rw [wf]
  congr 1
  rw [← attach_all kvs (fun p => wf p.2)]

/-- Navigate to the subtree at `path` and transform it with `f`, rebuilding
the enclosing tree; fails with a conflict if the path does not exist (spec
§4.3: apply "fails with PatchConflict if a Replace/Remove/Move's expected old
value or path does not match the tree being applied to"). -/
def applyAt (t : Tree) (path : List Step) (f : Tree → Except PatchError Tree) :
    Except PatchError Tree :=
  match path with
  | [] => f t
  | .key k :: rest =>
      match t with
      | .map kvs =>
          match lookupField k kvs with
          | none => .error .conflict
          | some v => (applyAt v rest f).map (fun w => .map (setField k w kvs))
      | _ => .error .conflict
  | .idx i :: rest =>
      match t with
      | .list xs =>
          match xs[i]? with
          | none => .error .conflict
          | some x => (applyAt x rest f).map (fun w => .list (xs.set i w))
      | _ => .error .conflict

/-- Apply one patch operation to a tree (spec §4.3). -/
def applyOp (t : Tree) (op : Op) : Except PatchError Tree :=
  match op with
  | .replace path old new =>
      applyAt t path (fun v => if eqv v old then .ok new else .error .conflict)
  | .add parent entry v =>
      applyAt t parent (fun c =>
        match entry, c with
        | .key k, .map kvs =>
            if (lookupField k kvs).isSome then .error .conflict
            else .ok (.map (kvs ++ [(k, v)]))
        | .idx i, .list xs =>
            if i ≤ xs.length then .ok (.list (xs.insertIdx i v)) else .error .conflict
        | _, _ => .error .conflict)
  | .remove parent entry old =>
      applyAt t parent (fun c =>
        match entry, c with
        | .key k, .map kvs =>
            match lookupField k kvs with
            | some v => if eqv v old then .ok (.map (eraseField k kvs)) else .error .conflict
            | none => .error .conflict
        | .idx i, .list xs =>
            match xs[i]? with
            | some x => if eqv x old then .ok (.list (xs.eraseIdx i)) else .error .conflict
            | none => .error .conflict
        | _, _ => .error .conflict)
  | .move parent src dst =>
      applyAt t parent (fun c =>
        match c with
        | .list xs =>
            match xs[src]? with
            | some x =>
                if dst ≤ (xs.eraseIdx src).length then
                  .ok (.list ((xs.eraseIdx src).insertIdx dst x))
                else .error .conflict
            | none => .error .conflict
        | _ => .error .conflict)

/-- Apply a whole patch, operation by operation in order (spec §4.3
`apply(tree, patch)`). -/
def applyPatch (t : Tree) (p : List Op) : Except PatchError Tree :=
  match p with
  | [] => .ok t
  | op :: rest =>
      match applyOp t op with
      | .ok t1 => applyPatch t1 rest
      | .error e => .error e

/-! ## The mock API store, from `src/services/api.ts` -/

/-- Document record (`JsonDocument` in `src/types`): id, raw string content,
creation timestamp. The optional `userId` plays no role in the store logic
and is not modelled. -/
structure JsonDocument where
  id : String
  content : String
  createdAt : String
deriving DecidableEq

/-- Version record (`JsonVersion` in `src/types`): id, owning document id,
full raw string content, creation timestamp, auto-save flag, the stored
jsondiffpatch output (`diff`), and the merge provenance id (`mergedFrom`).
The TypeScript interface has no `parentId` field; `parentId` is nevertheless
carried here as an `Option String` so that specification claims about parent
pointers can be stated — reading the absent JS property yields `undefined`,
so every operation of the store leaves it `none`. -/
structure JsonVersion where
  id : String
  documentId : String
  content : String
  createdAt : String
  isAutoSave : Bool
  diff : Option (List Op)
  mergedFrom : Option String
  parentId : Option String

/-- Mutable module state of `api.ts`: the `documents` and `versions` arrays. -/
structure ApiState where
  documents : List JsonDocument
  versions : List JsonVersion

/-- Errors thrown by the store (`"Document not found"` / `"Version not
found"` in `api.ts`). -/
inductive ApiError where
  | documentNotFound
  | versionNotFound
deriving DecidableEq

/-- The two values handed to the diff engine by `createVersion`
(`api.ts:285-295`): parse both raw strings as JSON; if either parse fails,
fall back to treating both as plain text (the catch block reassigns both
`oldContent` and `newContent` to the raw strings). -/
def diffInputs (parse : String → Option Tree) (oldStr newStr : String) : Tree × Tree :=
  match parse oldStr, parse newStr with
  | some o, some n => (o, n)
  | _, _ => (.str oldStr, .str newStr)

/-- Replace the first element satisfying `p` (models in-place mutation of the
object returned by `Array.prototype.find`). -/
def updateFirst (p : α → Bool) (f : α → α) : List α → List α
  | [] => []
  | x :: rest => if p x then f x :: rest else x :: updateFirst p f rest

/-- Translation of `createVersion` (`api.ts:269-321`). Looks up the document
(throwing DocumentNotFound if absent), computes the jsondiffpatch diff
between the document's current content and the new content (over parsed
trees, or over the raw strings if parsing fails), appends one new version
record, and updates the stored document content. `newId` stands for the
`generateId()` result and `createdAt` for `new Date().toISOString()`. -/
def createVersion (parse : String → Option Tree) (s : ApiState)
    (newId createdAt : String) (documentId content : String) (isAutoSave : Bool) :
    Except ApiError (ApiState × JsonVersion) :=
  match s.documents.find? (fun doc => doc.id == documentId) with
  | none => .error .documentNotFound
  | some document =>
      let inputs := diffInputs parse document.content content
      let d := diff inputs.1 inputs.2
      let newVersion : JsonVersion :=
        { id := newId, documentId := documentId, content := content,
          createdAt := createdAt, isAutoSave := isAutoSave,
          diff := some d, mergedFrom := none, parentId := none }
      .ok ({ documents := s.documents.map
               (fun doc => if doc.id == documentId then { doc with content := content } else doc),
             versions := s.versions ++ [newVersion] },
           newVersion)

/-- Translation of `getVersions` (`api.ts:343-364`): returns the stored
versions whose `documentId` matches, with no existence check on the document
itself. -/
def getVersions (s : ApiState) (documentId : String) : List JsonVersion :=
  s.versions.filter (fun version => version.documentId == documentId)

/-- Translation of `mergeVersions` (`api.ts:387-440`). Looks up the source
version by `(documentId, versionId)` (throwing VersionNotFound if absent),
then the document (throwing DocumentNotFound if absent), overwrites the found
document's content with the version's content in place, and appends a new
version carrying the merged content with `mergedFrom = versionId` and
`isAutoSave = false` (and no `diff`). Returns the updated document. -/
def mergeVersions (s : ApiState) (newId createdAt : String)
    (documentId versionId : String) : Except ApiError (ApiState × JsonDocument) :=
  match s.versions.find? (fun v => v.documentId == documentId && v.id == versionId) with
  | none => .error .versionNotFound
  | some version =>
      match s.documents.find? (fun doc => doc.id == documentId) with
      | none => .error .documentNotFound
      | some document =>
          let updatedDoc := { document with content := version.content }
          let newVersion : JsonVersion :=
            { id := newId, documentId := documentId, content := version.content,
              createdAt := createdAt, isAutoSave := false,
              diff := none, mergedFrom := some versionId, parentId := none }
          .ok ({ documents := updateFirst (fun doc => doc.id == documentId)
                   (fun doc => { doc with content := version.content }) s.documents,
                 versions := s.versions ++ [newVersion] },
               updatedDoc)

/-- Translation of `getVersion` (`api.ts:459-480`): version lookup by
`(documentId, versionId)`, VersionNotFound if absent. -/
def getVersion (s : ApiState) (documentId versionId : String) :
    Except ApiError JsonVersion :=
  match s.versions.find? (fun v => v.documentId == documentId && v.id == versionId) with
  | none => .error .versionNotFound
  | some version => .ok version

/-- Sequential `createVersion` calls on one document, threading the state;
each entry supplies the generated id, the timestamp, the content and the
auto-save flag of one call. A call that throws leaves the state unchanged
and the run continues with the next call. -/
def runCreates (parse : String → Option Tree) (s : ApiState) (documentId : String) :
    List (String × String × String × Bool) → ApiState
  | [] => s
  | (newId, createdAt, content, auto) :: rest =>
      match createVersion parse s newId createdAt documentId content auto with
      | .ok (s1, _) => runCreates parse s1 documentId rest
      | .error _ => runCreates parse s documentId rest

/-! ## The editor save logic, from `src/components/JsonEditor.tsx` -/

/-- Editor component state: the pieces of `JsonEditor` state relevant to
saving — `content`, `error`, `isValid`, `isSaving`, `saveSuccess`,
`currentDocumentId`, and the refs `lastSavedContentRef` (`lastSavedContent`)
and `hasChangesRef` (`hasChanges`). -/
structure EditorState where
  content : String
  error : Option String
  isValid : Bool
  isSaving : Bool
  saveSuccess : Bool
  currentDocumentId : Option String
  lastSavedContent : String
  hasChanges : Bool

/-- Translation of `validateJson` (`JsonEditor.tsx:87-100`): try to parse,
set or clear the error message, return validity. The JS error message text is
abstracted to a fixed string. -/
def validateJson (parse : String → Option Tree) (e : EditorState) (value : String) :
    EditorState × Bool :=
  match parse value with
  | some _ => ({ e with error := none }, true)
  | none => ({ e with error := some "Invalid JSON" }, false)

/-- Translation of `handleEditorChange` (`JsonEditor.tsx:102-109`): store the
new content, validate it, and set the dirty flag to whether the value differs
from the last successfully saved content. -/
def handleEditorChange (parse : String → Option Tree) (e : EditorState)
    (value : String) : EditorState :=
  let e1 := { e with content := value }
  let ev := validateJson parse e1 value
  { ev.1 with isValid := ev.2, hasChanges := value != e.lastSavedContent }

/-- Translation of `saveVersion` (`JsonEditor.tsx:122-146`). Returns early if
there is no current document or the content is invalid. Otherwise calls
`createVersion`; on success it advances the last-saved baseline to the saved
content and clears the dirty flag and error; on failure it only records the
error message, leaving content, baseline, dirty flag and the store untouched.
`saveSuccess` is only set for manual saves. -/
def saveVersion (parse : String → Option Tree) (e : EditorState) (api : ApiState)
    (newId createdAt : String) (isAutoSave : Bool) : EditorState × ApiState :=
  match e.currentDocumentId with
  | none => (e, api)
  | some docId =>
      if !e.isValid then (e, api)
      else
        let e1 := { e with isSaving := true, saveSuccess := false }
        match createVersion parse api newId createdAt docId e.content isAutoSave with
        | .ok (api1, _) =>
            ({ e1 with lastSavedContent := e.content, hasChanges := false,
                       error := none, saveSuccess := !isAutoSave, isSaving := false },
             api1)
        | .error _ =>
            ({ e1 with error := some "Failed to save version", isSaving := false }, api)

/-- Translation of the auto-save timer body (`JsonEditor.tsx:74-78`): every
tick, save as an auto-save only when a document exists, the content is dirty
and the content is valid. -/
def autoSaveTick (parse : String → Option Tree) (e : EditorState) (api : ApiState)
    (newId createdAt : String) : EditorState × ApiState :=
  if e.currentDocumentId.isSome && e.hasChanges && e.isValid then
    saveVersion parse e api newId createdAt true
  else (e, api)

/-- Versions of a document that are not merge versions, newest first
(versions are appended in creation order, so newest-first is the reverse of
the stored order). -/
def newestFirstNonMerge (s : ApiState) (documentId : String) : List JsonVersion :=
  ((getVersions s documentId).filter (fun v => v.mergedFrom == none)).reverse

/-- The parent pointers of a newest-first version list form a single unbroken
chain: each version's `parentId` names the next older version, and the oldest
version's `parentId` is null. -/
def parentChainOk : List JsonVersion → Bool
  | [] => true
  | [v] => v.parentId == none
  | v :: w :: rest => v.parentId == some w.id && parentChainOk (w :: rest)

/-! ## Claim theorems -/

/-- C9: `getVersions` performs no document-existence check: it returns
exactly the stored versions whose `documentId` equals the argument, for every
`documentId`; in particular, if every stored version belongs to some stored
document and the given `documentId` matches no stored document, the result is
the empty list (a success), never a DocumentNotFound failure. -/
theorem getVersions_filter_spec (s : ApiState) (documentId : String) :
    (∀ v, v ∈ getVersions s documentId ↔ (v ∈ s.versions ∧ v.documentId = documentId)) ∧
    ((∀ v ∈ s.versions, ∃ d ∈ s.documents, d.id = v.documentId) →
      s.documents.find? (fun d => d.id == documentId) = none →
      getVersions s documentId = []) := by
  constructor
  · intro v
    simp [getVersions, List.mem_filter]
  · intro hinv hnone
    rw [List.find?_eq_none] at hnone
    simp only [getVersions, List.filter_eq_nil_iff]
    intro v hv
    obtain ⟨d, hd, hid⟩ := hinv v hv
    have := hnone d hd
    simp only [beq_iff_eq] at this ⊢
    intro hEq
    exact this (hid ▸ hEq)

/-- Witness for C9 at a concrete state: one stored document `"d"` with one
version; listing versions of the unknown document id `"e"` yields `[]`. -/
theorem getVersions_filter_spec_witness :
    ((∀ v, v ∈ getVersions
        ⟨[⟨"d", "a", "t0"⟩],
         [⟨"v1", "d", "a", "t1", false, none, none, none⟩]⟩ "e"
      ↔ (v ∈ [(⟨"v1", "d", "a", "t1", false, none, none, none⟩ : JsonVersion)]
          ∧ v.documentId = "e")) ∧
     getVersions
        ⟨[⟨"d", "a", "t0"⟩],
         [⟨"v1", "d", "a", "t1", false, none, none, none⟩]⟩ "e" = []) := by
  refine ⟨(getVersions_filter_spec _ "e").1,
          (getVersions_filter_spec _ "e").2 ?_ rfl⟩
  intro v hv
  refine ⟨⟨"d", "a", "t0"⟩, by simp, ?_⟩
  simp at hv
  rw [hv]

/-- C5 counterexample: on the empty store (so the document id `"doc-1"` is
unknown), `mergeVersions` reports VersionNotFound, not DocumentNotFound as
the claim states — the version lookup (`api.ts:407-412`) runs before the
document lookup (`api.ts:415-418`), and no version can match an unknown
document id. -/
theorem mergeVersions_unknownDoc_cex :
    (ApiState.mk [] []).documents.find? (fun d => d.id == "doc-1") = none ∧
    mergeVersions (ApiState.mk [] []) "new-id" "t" "doc-1" "v-1"
      = .error .versionNotFound ∧
    ApiError.versionNotFound ≠ ApiError.documentNotFound :=
  ⟨rfl, rfl, by decide⟩

/-- C5 (amended): `mergeVersions` fails with VersionNotFound whenever no
stored version matches `(documentId, versionId)` — which includes every
unknown `documentId`, since the version lookup precedes the document lookup —
and it fails with DocumentNotFound exactly when a matching version exists but
no document with that id does. -/
theorem mergeVersions_error_spec (s : ApiState) (newId createdAt documentId versionId : String) :
    (s.versions.find? (fun v => v.documentId == documentId && v.id == versionId) = none →
      mergeVersions s newId createdAt documentId versionId = .error .versionNotFound) ∧
    (∀ v, s.versions.find? (fun w => w.documentId == documentId && w.id == versionId) = some v →
      s.documents.find? (fun d => d.id == documentId) = none →
      mergeVersions s newId createdAt documentId versionId = .error .documentNotFound) := by
  constructor
  · intro h
    simp [mergeVersions, h]
  · intro v hv hd
    simp [mergeVersions, hv, hd]

/-- Witness for C5 (amended) at concrete states: the empty store gives
VersionNotFound; a store holding an orphan version but no document gives
DocumentNotFound. -/
theorem mergeVersions_error_spec_witness :
    mergeVersions (ApiState.mk [] []) "n" "t" "d" "v" = .error .versionNotFound ∧
    mergeVersions
      (ApiState.mk [] [⟨"v", "d", "a", "t1", false, none, none, none⟩])
      "n" "t" "d" "v" = .error .documentNotFound :=
  ⟨(mergeVersions_error_spec (ApiState.mk [] []) "n" "t" "d" "v").1 rfl,
   (mergeVersions_error_spec
      (ApiState.mk [] [⟨"v", "d", "a", "t1", false, none, none, none⟩])
      "n" "t" "d" "v").2 ⟨"v", "d", "a", "t1", false, none, none, none⟩ rfl rfl⟩

/-- C2: for a known document id, `createVersion` appends exactly one new
version whose content is the given content and whose stored `diff` is the
diff engine's patch from the document's current content to the new content
(over the parsed-or-raw inputs of `api.ts:285-295`), and it updates that
document's stored content to the new content, leaving other documents alone;
for an unknown document id it fails with DocumentNotFound (and, the failure
being thrown before any mutation, creates nothing). -/
theorem createVersion_spec (parse : String → Option Tree) (s : ApiState)
    (newId createdAt documentId content : String) (isAutoSave : Bool) :
    (s.documents.find? (fun d => d.id == documentId) = none →
      createVersion parse s newId createdAt documentId content isAutoSave
        = .error .documentNotFound) ∧
    (∀ doc, s.documents.find? (fun d => d.id == documentId) = some doc →
      ∃ s1 v, createVersion parse s newId createdAt documentId content isAutoSave
          = .ok (s1, v) ∧
        s1.versions = s.versions ++ [v] ∧
        v.content = content ∧
        v.isAutoSave = isAutoSave ∧
        v.documentId = documentId ∧
        v.id = newId ∧
        v.diff = some (diff (diffInputs parse doc.content content).1
                            (diffInputs parse doc.content content).2) ∧
        s1.documents.find? (fun d => d.id == documentId)
          = some { doc with content := content } ∧
        (∀ d ∈ s.documents, d.id ≠ documentId → d ∈ s1.documents)) := by
  constructor
  · intro h
    simp [createVersion, h]
  · intro doc hd
    simp only [createVersion, hd]
    refine ⟨_, _, rfl, rfl, rfl, rfl, rfl, rfl, rfl, ?_, ?_⟩
    · have hid := List.find?_some hd
      have hid2 : doc.id = documentId := by simpa using hid
      rw [List.find?_map]
      have hcomp : ((fun d : JsonDocument => d.id == documentId) ∘
          (fun d : JsonDocument =>
            if d.id == documentId then { d with content := content } else d))
          = (fun d : JsonDocument => d.id == documentId) := by
        funext d
        by_cases h : d.id = documentId <;> simp [h]
      rw [hcomp, hd]
      simp [hid2]
    · intro d hmem hne
      have hgd : (fun doc : JsonDocument =>
          if doc.id == documentId then { doc with content := content } else doc) d = d := by
        simp [hne]
      have hm := List.mem_map_of_mem (fun doc : JsonDocument =>
          if doc.id == documentId then { doc with content := content } else doc) hmem
      rw [hgd] at hm
      exact hm

/-- Witness for C2 at a concrete state: a store with one document `"d"`;
creating a version for `"d"` succeeds and appends it, and creating one for
the unknown id `"e"` fails with DocumentNotFound. -/
theorem createVersion_spec_witness :
    (∃ s1 v, createVersion (fun _ => none) (ApiState.mk [⟨"d", "a", "t0"⟩] [])
        "v1" "t1" "d" "b" false = .ok (s1, v) ∧
      s1.versions = [] ++ [v] ∧
      v.content = "b" ∧
      v.isAutoSave = false ∧
      v.documentId = "d" ∧
      v.id = "v1" ∧
      v.diff = some (diff (diffInputs (fun _ => none) "a" "b").1
                          (diffInputs (fun _ => none) "a" "b").2) ∧
      s1.documents.find? (fun d => d.id == "d") = some ⟨"d", "b", "t0"⟩ ∧
      (∀ d ∈ [(⟨"d", "a", "t0"⟩ : JsonDocument)], d.id ≠ "d" → d ∈ s1.documents)) ∧
    createVersion (fun _ => none) (ApiState.mk [⟨"d", "a", "t0"⟩] [])
        "v1" "t1" "e" "b" false = .error .documentNotFound :=
  ⟨(createVersion_spec (fun _ => none) (ApiState.mk [⟨"d", "a", "t0"⟩] [])
      "v1" "t1" "d" "b" false).2 ⟨"d", "a", "t0"⟩ rfl,
   (createVersion_spec (fun _ => none) (ApiState.mk [⟨"d", "a", "t0"⟩] [])
      "v1" "t1" "e" "b" false).1 rfl⟩

/-- C10: `createVersion` never rejects unparsable content: when either the
stored document content or the new content fails to parse, the call still
succeeds, and the stored diff is computed over the two raw strings as plain
text. -/
theorem createVersion_plainText (parse : String → Option Tree) (s : ApiState)
    (newId createdAt documentId content : String) (isAutoSave : Bool)
    (doc : JsonDocument)
    (hd : s.documents.find? (fun d => d.id == documentId) = some doc)
    (hp : parse doc.content = none ∨ parse content = none) :
    ∃ s1 v, createVersion parse s newId createdAt documentId content isAutoSave
        = .ok (s1, v) ∧
      s1.versions = s.versions ++ [v] ∧
      v.diff = some (diff (.str doc.content) (.str content)) := by
  have hfall : diffInputs parse doc.content content = (.str doc.content, .str content) := by
    rcases hp with h | h
    · simp [diffInputs, h]
    · cases ho : parse doc.content <;> simp [diffInputs, h, ho]
  simp only [createVersion, hd, hfall]
  exact ⟨_, _, rfl, rfl, rfl⟩

/-- Witness for C10 at a concrete state: with a parser that accepts nothing,
saving over document `"d"` succeeds and stores the plain-text diff. -/
theorem createVersion_plainText_witness :
    ∃ s1 v, createVersion (fun _ => none) (ApiState.mk [⟨"d", "a", "t0"⟩] [])
        "v1" "t1" "d" "b" false = .ok (s1, v) ∧
      s1.versions = [] ++ [v] ∧
      v.diff = some (diff (.str "a") (.str "b")) :=
  createVersion_plainText (fun _ => none) (ApiState.mk [⟨"d", "a", "t0"⟩] [])
    "v1" "t1" "d" "b" false ⟨"d", "a", "t0"⟩ rfl (Or.inl rfl)

/-- C3: merging a version `v` that belongs to the document creates exactly
one new version, appended after all existing ones (so it is the newest for
the document), whose content equals v's content, whose `mergedFrom` is v's
id, and whose `isAutoSave` is false; every previously existing version,
including v itself, is still stored unchanged. -/
theorem mergeVersions_spec (s : ApiState) (newId createdAt documentId : String)
    (v : JsonVersion) (doc : JsonDocument)
    (hv : s.versions.find? (fun w => w.documentId == documentId && w.id == v.id) = some v)
    (hd : s.documents.find? (fun d => d.id == documentId) = some doc) :
    ∃ s1 rdoc, mergeVersions s newId createdAt documentId v.id = .ok (s1, rdoc) ∧
      ∃ nv, s1.versions = s.versions ++ [nv] ∧
        nv.content = v.content ∧
        nv.mergedFrom = some v.id ∧
        nv.isAutoSave = false ∧
        nv.documentId = documentId ∧
        (getVersions s1 documentId).getLast? = some nv ∧
        (∀ w ∈ s.versions, w ∈ s1.versions) := by
  simp only [mergeVersions, hv, hd]
  refine ⟨_, _, rfl, _, rfl, rfl, rfl, rfl, rfl, ?_, ?_⟩
  · show (getVersions ⟨_, s.versions ++ [_]⟩ documentId).getLast? = _
    rw [getVersions]
    rw [List.filter_append]
    simp only [List.filter_cons, List.filter_nil]
    rw [if_pos (by simp)]
    rw [List.getLast?_append]
    rfl
  · intro w hw
    exact List.mem_append_left _ hw

/-- Witness for C3 at a concrete state: merging version `"v1"` of document
`"d"` succeeds with the promised shape. -/
theorem mergeVersions_spec_witness :
    ∃ s1 rdoc, mergeVersions
        (ApiState.mk [⟨"d", "b", "t0"⟩]
          [⟨"v1", "d", "a", "t1", false, none, none, none⟩,
           ⟨"v2", "d", "b", "t2", false, none, none, none⟩])
        "v3" "t3" "d" "v1" = .ok (s1, rdoc) ∧
      ∃ nv, s1.versions
          = [⟨"v1", "d", "a", "t1", false, none, none, none⟩,
             ⟨"v2", "d", "b", "t2", false, none, none, none⟩] ++ [nv] ∧
        nv.content = "a" ∧
        nv.mergedFrom = some "v1" ∧
        nv.isAutoSave = false ∧
        nv.documentId = "d" ∧
        (getVersions s1 "d").getLast? = some nv ∧
        (∀ w ∈ [(⟨"v1", "d", "a", "t1", false, none, none, none⟩ : JsonVersion),
                ⟨"v2", "d", "b", "t2", false, none, none, none⟩], w ∈ s1.versions) :=
  mergeVersions_spec
    (ApiState.mk [⟨"d", "b", "t0"⟩]
      [⟨"v1", "d", "a", "t1", false, none, none, none⟩,
       ⟨"v2", "d", "b", "t2", false, none, none, none⟩])
    "v3" "t3" "d" ⟨"v1", "d", "a", "t1", false, none, none, none⟩ ⟨"d", "b", "t0"⟩
    rfl rfl

/-- C6: when a manual save fails (the `createVersion` call throws), the
editor's in-memory content, its last-saved baseline and dirty flag, and the
whole stored state — version list and document contents — are exactly as
before the attempt; only the error message, `isSaving` and `saveSuccess`
flags change. -/
theorem saveVersion_failure_spec (parse : String → Option Tree)
    (e : EditorState) (api : ApiState) (newId createdAt docId : String)
    (err : ApiError)
    (hdoc : e.currentDocumentId = some docId)
    (hvalid : e.isValid = true)
    (hfail : createVersion parse api newId createdAt docId e.content false
      = .error err) :
    (saveVersion parse e api newId createdAt false).2 = api ∧
    (saveVersion parse e api newId createdAt false).1.content = e.content ∧
    (saveVersion parse e api newId createdAt false).1.lastSavedContent
      = e.lastSavedContent ∧
    (saveVersion parse e api newId createdAt false).1.hasChanges = e.hasChanges ∧
    (saveVersion parse e api newId createdAt false).2.versions = api.versions ∧
    (saveVersion parse e api newId createdAt false).2.documents = api.documents := by
  simp [saveVersion, hdoc, hvalid, hfail]

/-- Witness for C6 at a concrete state: a save against an empty store (the
document id is unknown, so `createVersion` throws) changes neither the
editor content nor the store. -/
theorem saveVersion_failure_spec_witness :
    (saveVersion (fun _ => some .null)
        ⟨"c", none, true, false, false, some "d", "b", true⟩
        (ApiState.mk [] []) "v1" "t1" false).2 = ApiState.mk [] [] ∧
    (saveVersion (fun _ => some .null)
        ⟨"c", none, true, false, false, some "d", "b", true⟩
        (ApiState.mk [] []) "v1" "t1" false).1.content = "c" ∧
    (saveVersion (fun _ => some .null)
        ⟨"c", none, true, false, false, some "d", "b", true⟩
        (ApiState.mk [] []) "v1" "t1" false).1.lastSavedContent = "b" ∧
    (saveVersion (fun _ => some .null)
        ⟨"c", none, true, false, false, some "d", "b", true⟩
        (ApiState.mk [] []) "v1" "t1" false).1.hasChanges = true ∧
    (saveVersion (fun _ => some .null)
        ⟨"c", none, true, false, false, some "d", "b", true⟩
        (ApiState.mk [] []) "v1" "t1" false).2.versions = [] ∧
    (saveVersion (fun _ => some .null)
        ⟨"c", none, true, false, false, some "d", "b", true⟩
        (ApiState.mk [] []) "v1" "t1" false).2.documents = [] :=
  saveVersion_failure_spec (fun _ => some .null)
    ⟨"c", none, true, false, false, some "d", "b", true⟩
    (ApiState.mk [] []) "v1" "t1" "d" .documentNotFound rfl rfl rfl

/-- C7: with the editor invariants that the dirty flag records "content
differs from the last successfully saved content" and the validity flag
records "content parses", an auto-save tick on clean or unparsable content
is a no-op; a tick can only touch the store when the content is dirty and
parses; and after a successful save the baseline equals the just-saved
content and the dirty flag is cleared, so an immediately following tick with
unchanged content does not save. -/
theorem autoSaveTick_spec (parse : String → Option Tree)
    (e : EditorState) (api : ApiState) (newId createdAt : String)
    (hdirty : e.hasChanges = (e.content != e.lastSavedContent))
    (hvalid : e.isValid = (parse e.content).isSome) :
    ((e.content = e.lastSavedContent ∨ parse e.content = none) →
      autoSaveTick parse e api newId createdAt = (e, api)) ∧
    ((autoSaveTick parse e api newId createdAt).2 ≠ api →
      e.content ≠ e.lastSavedContent ∧ (parse e.content).isSome = true) ∧
    (∀ docId api1 v,
      e.currentDocumentId = some docId →
      e.isValid = true →
      createVersion parse api newId createdAt docId e.content true = .ok (api1, v) →
      (saveVersion parse e api newId createdAt true).1.lastSavedContent = e.content ∧
      (saveVersion parse e api newId createdAt true).1.content = e.content ∧
      (saveVersion parse e api newId createdAt true).1.hasChanges = false ∧
      (∀ api2 nid2 ts2,
        autoSaveTick parse (saveVersion parse e api newId createdAt true).1 api2 nid2 ts2
          = ((saveVersion parse e api newId createdAt true).1, api2))) := by
  refine ⟨?_, ?_, ?_⟩
  · intro h
    rcases h with h | h
    · have : e.hasChanges = false := by simp [hdirty, h]
      simp [autoSaveTick, this]
    · have : e.isValid = false := by simp [hvalid, h]
      simp [autoSaveTick, this]
  · intro h
    by_cases hgate : (e.currentDocumentId.isSome && e.hasChanges && e.isValid) = true
    · have h2 : e.hasChanges = true := by
        rcases Bool.and_eq_true_iff.mp hgate with ⟨h3, _⟩
        exact (Bool.and_eq_true_iff.mp h3).2
      have h3 : e.isValid = true := (Bool.and_eq_true_iff.mp hgate).2
      constructor
      · intro hEq
        rw [hdirty, hEq] at h2
        simp at h2
      · rw [← hvalid]
        exact h3
    · exfalso
      apply h
      simp [autoSaveTick, hgate]
  · intro docId api1 v hdoc hval hok
    simp only [saveVersion, hdoc, hval, hok]
    refine ⟨rfl, rfl, rfl, ?_⟩
    intro api2 nid2 ts2
    simp [autoSaveTick]

/-- Witness for C7 at a concrete editor state (dirty, valid content over a
one-document store): instantiates the theorem and uses it to conclude that
the successful save clears the dirty flag and the following tick is a
no-op. -/
theorem autoSaveTick_spec_witness :
    ((("b" : String) = "a" ∨ (fun _ => some Tree.null) "b" = none) →
      autoSaveTick (fun _ => some Tree.null)
        ⟨"b", none, true, false, false, some "d", "a", true⟩
        (ApiState.mk [⟨"d", "a", "t0"⟩] []) "v1" "t1"
        = (⟨"b", none, true, false, false, some "d", "a", true⟩,
           ApiState.mk [⟨"d", "a", "t0"⟩] [])) ∧
    ((autoSaveTick (fun _ => some Tree.null)
        ⟨"b", none, true, false, false, some "d", "a", true⟩
        (ApiState.mk [⟨"d", "a", "t0"⟩] []) "v1" "t1").2
        ≠ ApiState.mk [⟨"d", "a", "t0"⟩] [] →
      ("b" : String) ≠ "a" ∧ ((fun _ => some Tree.null) "b").isSome = true) ∧
    (∀ docId api1 v,
      (some "d" : Option String) = some docId →
      true = true →
      createVersion (fun _ => some Tree.null) (ApiState.mk [⟨"d", "a", "t0"⟩] [])
        "v1" "t1" docId "b" true = .ok (api1, v) →
      (saveVersion (fun _ => some Tree.null)
          ⟨"b", none, true, false, false, some "d", "a", true⟩
          (ApiState.mk [⟨"d", "a", "t0"⟩] []) "v1" "t1" true).1.lastSavedContent = "b" ∧
      (saveVersion (fun _ => some Tree.null)
          ⟨"b", none, true, false, false, some "d", "a", true⟩
          (ApiState.mk [⟨"d", "a", "t0"⟩] []) "v1" "t1" true).1.content = "b" ∧
      (saveVersion (fun _ => some Tree.null)
          ⟨"b", none, true, false, false, some "d", "a", true⟩
          (ApiState.mk [⟨"d", "a", "t0"⟩] []) "v1" "t1" true).1.hasChanges = false ∧
      (∀ api2 nid2 ts2,
        autoSaveTick (fun _ => some Tree.null)
          (saveVersion (fun _ => some Tree.null)
            ⟨"b", none, true, false, false, some "d", "a", true⟩
            (ApiState.mk [⟨"d", "a", "t0"⟩] []) "v1" "t1" true).1 api2 nid2 ts2
          = ((saveVersion (fun _ => some Tree.null)
              ⟨"b", none, true, false, false, some "d", "a", true⟩
              (ApiState.mk [⟨"d", "a", "t0"⟩] []) "v1" "t1" true).1, api2))) :=
  autoSaveTick_spec (fun _ => some Tree.null)
    ⟨"b", none, true, false, false, some "d", "a", true⟩
    (ApiState.mk [⟨"d", "a", "t0"⟩] []) "v1" "t1" (by decide) (by decide)

theorem createVersion_ok_parts (parse : String → Option Tree) (s : ApiState)
    (nid ts documentId content : String) (auto : Bool) (doc : JsonDocument)
    (hd : s.documents.find? (fun d => d.id == documentId) = some doc) :
    ∃ s1 v1, createVersion parse s nid ts documentId content auto = .ok (s1, v1) ∧
      s1.versions = s.versions ++ [v1] ∧
      s1.documents = s.documents.map (fun d : JsonDocument =>
        if d.id == documentId then { d with content := content } else d) ∧
      v1.documentId = documentId ∧ v1.parentId = none := by
  simp only [createVersion, hd]
  exact ⟨_, _, rfl, rfl, rfl, rfl, rfl⟩

theorem find?_update_id (documents : List JsonDocument) (documentId content : String) :
    (documents.map (fun d : JsonDocument =>
        if d.id == documentId then { d with content := content } else d)).find?
        (fun d => d.id == documentId)
      = (documents.find? (fun d => d.id == documentId)).map
          (fun d : JsonDocument =>
            if d.id == documentId then { d with content := content } else d) := by
  rw [List.find?_map]
  have hcomp : ((fun d : JsonDocument => d.id == documentId) ∘
      (fun d : JsonDocument =>
        if d.id == documentId then { d with content := content } else d))
      = (fun d : JsonDocument => d.id == documentId) := by
    funext d
    by_cases h : d.id = documentId <;> simp [h]
  rw [hcomp]

theorem getVersions_append_one (s : ApiState) (documentId : String)
    (docs : List JsonDocument) (nv : JsonVersion) (hnv : nv.documentId = documentId) :
    getVersions ⟨docs, s.versions ++ [nv]⟩ documentId
      = getVersions s documentId ++ [nv] := by
  simp only [getVersions, List.filter_append, List.filter_cons, List.filter_nil]
  rw [if_pos (by simp [hnv])]

/-- C4 counterexample: starting from a store holding one document `"d"` with
no versions, two sequential `createVersion` calls leave exactly 2 version
records, but their `parentId` pointers do not form a chain — the stored
version records carry no `parentId` at all (the `JsonVersion` literal built
in `api.ts:300-307` has no such property), so the newest version's
`parentId` is null instead of pointing at the first version. -/
theorem runCreates_parentChain_cex :
    (getVersions
      (runCreates (fun _ => none) (ApiState.mk [⟨"d", "a", "t0"⟩] []) "d"
        [("v1", "t1", "b", false), ("v2", "t2", "c", false)]) "d").length = 2 ∧
    parentChainOk
      (newestFirstNonMerge
        (runCreates (fun _ => none) (ApiState.mk [⟨"d", "a", "t0"⟩] []) "d"
          [("v1", "t1", "b", false), ("v2", "t2", "c", false)]) "d") = false :=
  ⟨rfl, rfl⟩

/-- C4 (amended): after N sequential `createVersion` calls on a known
document, listing that document's versions does return exactly N more
records than before, but no parent chain links them: every version record
is either one that already existed or carries a null `parentId` (the store
never records a parent pointer). -/
theorem runCreates_count_spec (parse : String → Option Tree) (documentId : String) :
    ∀ (calls : List (String × String × String × Bool)) (s : ApiState),
      (s.documents.find? (fun d => d.id == documentId)).isSome = true →
      (getVersions (runCreates parse s documentId calls) documentId).length
        = (getVersions s documentId).length + calls.length ∧
      (∀ v ∈ getVersions (runCreates parse s documentId calls) documentId,
        v ∈ getVersions s documentId ∨ v.parentId = none) := by
  intro calls
  induction calls with
  | nil =>
      intro s h
      constructor
      · simp [runCreates]
      · intro v hv
        rw [runCreates] at hv
        exact Or.inl hv
  | cons c rest ih =>
      intro s hs
      obtain ⟨doc, hd⟩ := Option.isSome_iff_exists.mp hs
      obtain ⟨nid, ts, content, auto⟩ := c
      obtain ⟨s1, v1, hstep, hvers, hdocs, hvdoc, hvpar⟩ :=
        createVersion_ok_parts parse s nid ts documentId content auto doc hd
      have hrun : runCreates parse s documentId ((nid, ts, content, auto) :: rest)
          = runCreates parse s1 documentId rest := by
        rw [runCreates, hstep]
      have hs1 : ((s1.documents.find? (fun d => d.id == documentId)).isSome) = true := by
        rw [hdocs, find?_update_id, hd]
        rfl
      obtain ⟨ihlen, ihmem⟩ := ih s1 hs1
      have hgv : getVersions s1 documentId = getVersions s documentId ++ [v1] := by
        rw [getVersions, hvers, List.filter_append, getVersions]
        simp [hvdoc]
      constructor
      · rw [hrun, ihlen, hgv]
        simp
        omega
      · intro v hv
        rw [hrun] at hv
        rcases ihmem v hv with hin | hnone
        · rw [hgv] at hin
          rcases List.mem_append.mp hin with h | h
          · exact Or.inl h
          · simp at h
            rw [h]
            exact Or.inr hvpar
        · exact Or.inr hnone

/-- Witness for C4 (amended) at a concrete run: two calls on a store holding
one document `"d"` with no versions give exactly 2 records, each pre-existing
or with null `parentId`. -/
theorem runCreates_count_spec_witness :
    (getVersions
      (runCreates (fun _ => none) (ApiState.mk [⟨"d", "a", "t0"⟩] []) "d"
        [("v1", "t1", "b", false), ("v2", "t2", "c", false)]) "d").length
      = (getVersions (ApiState.mk [⟨"d", "a", "t0"⟩] []) "d").length + 2 ∧
    (∀ v ∈ getVersions
      (runCreates (fun _ => none) (ApiState.mk [⟨"d", "a", "t0"⟩] []) "d"
        [("v1", "t1", "b", false), ("v2", "t2", "c", false)]) "d",
      v ∈ getVersions (ApiState.mk [⟨"d", "a", "t0"⟩] []) "d" ∨ v.parentId = none) :=
  runCreates_count_spec (fun _ => none) "d"
    [("v1", "t1", "b", false), ("v2", "t2", "c", false)]
    (ApiState.mk [⟨"d", "a", "t0"⟩] []) rfl

/-! ## Association-list lemmas for the diff engine proofs -/

theorem nodupKeys_iff (l : List String) : nodupKeys l = true ↔ l.Nodup := by
  induction l with
  | nil => simp [nodupKeys]
  | cons k rest ih =>
      simp [nodupKeys, ih, List.nodup_cons]

theorem keys_setField (k : String) (v : Tree) (l : List (String × Tree)) :
    (setField k v l).map Prod.fst = l.map Prod.fst := by
  induction l with
  | nil => rfl
  | cons p rest ih =>
      rw [setField]
      by_cases h : p.1 == k <;> simp [h, ih]

theorem length_setField (k : String) (v : Tree) (l : List (String × Tree)) :
    (setField k v l).length = l.length := by
  induction l with
  | nil => rfl
  | cons p rest ih =>
      rw [setField]
      by_cases h : p.1 == k <;> simp [h, ih]

theorem lookupField_eq_none_iff (k : String) (l : List (String × Tree)) :
    lookupField k l = none ↔ k ∉ l.map Prod.fst := by
  induction l with
  | nil => simp [lookupField]
  | cons p rest ih =>
      by_cases h : p.1 = k
      · subst h
        simp [lookupField]
      · simp [lookupField, beq_iff_eq, h, ih, Ne.symm h]

theorem lookupField_mem {k : String} {v : Tree} {l : List (String × Tree)}
    (h : lookupField k l = some v) : (k, v) ∈ l := by
  induction l with
  | nil => simp [lookupField] at h
  | cons p rest ih =>
      rw [lookupField] at h
      by_cases hk : p.1 == k
      · rw [if_pos hk] at h
        rw [beq_iff_eq] at hk
        obtain ⟨k1, v1⟩ := p
        simp at hk h
        simp [hk, h]
      · rw [if_neg hk] at h
        exact List.mem_cons_of_mem _ (ih h)

theorem lookupField_isSome_of_mem {k : String} {v : Tree} {l : List (String × Tree)}
    (h : (k, v) ∈ l) : (lookupField k l).isSome = true := by
  induction l with
  | nil => simp at h
  | cons p rest ih =>
      rw [lookupField]
      by_cases hk : p.1 == k
      · simp [hk]
      · rw [if_neg hk]
        rcases List.mem_cons.mp h with h1 | h1
        · rw [← h1] at hk
          simp at hk
        · exact ih h1

theorem lookupField_of_mem_nodup {k : String} {v : Tree} {l : List (String × Tree)}
    (hnd : (l.map Prod.fst).Nodup) (h : (k, v) ∈ l) : lookupField k l = some v := by
  induction l with
  | nil => simp at h
  | cons p rest ih =>
      rw [List.map_cons, List.nodup_cons] at hnd
      rw [lookupField]
      rcases List.mem_cons.mp h with h1 | h1
      · rw [← h1]
        simp
      · have hk : ¬(p.1 == k) := by
          intro hc
          rw [beq_iff_eq] at hc
          apply hnd.1
          rw [hc]
          exact List.mem_map_of_mem Prod.fst h1
        rw [if_neg hk]
        exact ih hnd.2 h1

theorem lookupField_setField_self {k : String} {l : List (String × Tree)}
    (h : (lookupField k l).isSome = true) (w : Tree) :
    lookupField k (setField k w l) = some w := by
  induction l with
  | nil => simp [lookupField] at h
  | cons p rest ih =>
      rw [setField]
      by_cases hk : p.1 == k
      · rw [if_pos hk, lookupField, if_pos hk]
      · rw [if_neg hk, lookupField, if_neg hk]
        rw [lookupField, if_neg hk] at h
        exact ih h

theorem lookupField_setField_ne {k k2 : String} (l : List (String × Tree))
    (h : k ≠ k2) (w : Tree) :
    lookupField k (setField k2 w l) = lookupField k l := by
  induction l with
  | nil => rfl
  | cons p rest ih =>
      rw [setField]
      by_cases hk : p.1 == k2
      · rw [if_pos hk]
        have hpk : ¬(p.1 == k) := by
          rw [beq_iff_eq] at hk ⊢
          rw [hk]
          exact fun hc => h hc.symm
        rw [lookupField, if_neg hpk, lookupField, if_neg hpk]
      · rw [if_neg hk, lookupField, lookupField]
        by_cases hpk : p.1 == k
        · rw [if_pos hpk, if_pos hpk]
        · rw [if_neg hpk, if_neg hpk, ih]

theorem lookupField_append (k : String) (l m : List (String × Tree)) :
    lookupField k (l ++ m)
      = match lookupField k l with
        | some v => some v
        | none => lookupField k m := by
  induction l with
  | nil => simp [lookupField]
  | cons p rest ih =>
      rw [List.cons_append, lookupField, lookupField]
      by_cases hk : p.1 == k
      · rw [if_pos hk, if_pos hk]
      · rw [if_neg hk, if_neg hk, ih]

theorem keys_eraseField (k : String) (l : List (String × Tree)) :
    (eraseField k l).map Prod.fst = (l.map Prod.fst).erase k := by
  induction l with
  | nil => rfl
  | cons p rest ih =>
      rw [eraseField, List.map_cons, List.erase_cons]
      by_cases hk : p.1 == k
      · rw [if_pos hk, if_pos hk]
      · rw [if_neg hk, if_neg hk, List.map_cons, ih]

theorem lookupField_eraseField_ne {k k2 : String} (l : List (String × Tree))
    (h : k ≠ k2) : lookupField k (eraseField k2 l) = lookupField k l := by
  induction l with
  | nil => rfl
  | cons p rest ih =>
      rw [eraseField]
      by_cases hk : p.1 == k2
      · rw [if_pos hk, lookupField]
        have hpk : ¬(p.1 == k) := by
          rw [beq_iff_eq] at hk ⊢
          rw [hk]
          exact fun hc => h hc.symm
        rw [if_neg hpk]
      · rw [if_neg hk, lookupField, lookupField]
        by_cases hpk : p.1 == k
        · rw [if_pos hpk, if_pos hpk]
        · rw [if_neg hpk, if_neg hpk, ih]

theorem lookupField_eraseField_self {k : String} {l : List (String × Tree)}
    (hnd : (l.map Prod.fst).Nodup) : lookupField k (eraseField k l) = none := by
  rw [lookupField_eq_none_iff, keys_eraseField]
  exact hnd.not_mem_erase

theorem length_eraseField {k : String} {l : List (String × Tree)}
    (h : (lookupField k l).isSome = true) :
    (eraseField k l).length + 1 = l.length := by
  induction l with
  | nil => simp [lookupField] at h
  | cons p rest ih =>
      rw [eraseField]
      by_cases hk : p.1 == k
      · rw [if_pos hk]
        rfl
      · rw [if_neg hk]
        rw [lookupField, if_neg hk] at h
        simp only [List.length_cons]
        rw [← ih h]

/-! ## Well-formedness and reflexivity of deep equality -/

theorem wf_list_mem {xs : List Tree} (h : wf (.list xs) = true) {x : Tree}
    (hx : x ∈ xs) : wf x = true := by
  rw [wf_list, List.all_eq_true] at h
  exact h x hx

theorem wf_map_nodup {kvs : List (String × Tree)} (h : wf (.map kvs) = true) :
    (kvs.map Prod.fst).Nodup := by
  rw [wf_map, Bool.and_eq_true] at h
  exact (nodupKeys_iff _).mp h.1

theorem wf_map_mem {kvs : List (String × Tree)} (h : wf (.map kvs) = true)
    {p : String × Tree} (hp : p ∈ kvs) : wf p.2 = true := by
  rw [wf_map, Bool.and_eq_true, List.all_eq_true] at h
  exact h.2 p hp

theorem zip_self (l : List Tree) : l.zip l = l.map (fun x => (x, x)) := by
  induction l with
  | nil => rfl
  | cons x rest ih => rw [List.zip_cons_cons, List.map_cons, ih]

theorem scalarEq_refl (a : Tree) (hl : ∀ xs, a ≠ .list xs) (hm : ∀ kvs, a ≠ .map kvs) :
    scalarEq a a = true := by
  cases a with
  | null => rfl
  | bool b => simp [scalarEq]
  | num n => simp [scalarEq]
  | str s => simp [scalarEq]
  | list xs => exact absurd rfl (hl xs)
  | map kvs => exact absurd rfl (hm kvs)

theorem eqv_refl_aux : ∀ (n : Nat) (a : Tree), sizeOf a < n → wf a = true →
    eqv a a = true := by
  intro n
  induction n using Nat.strong_induction_on with
  | _ n ih =>
    intro a hsz hwf
    match a with
    | .null => simp [eqv, scalarEq]
    | .bool b => simp [eqv, scalarEq]
    | .num m => simp [eqv, scalarEq]
    | .str s => simp [eqv, scalarEq]
    | .list xs =>
        rw [eqv_list, zip_self, Bool.and_eq_true]
        refine ⟨by simp, ?_⟩
        rw [List.all_eq_true]
        intro p hp
        obtain ⟨x, hx, hpx⟩ := List.mem_map.mp hp
        rw [← hpx]
        have hszx : sizeOf x < sizeOf (Tree.list xs) := by
          have := List.sizeOf_lt_of_mem hx
          simp
          omega
        exact ih (sizeOf (Tree.list xs)) hsz x hszx (wf_list_mem hwf hx)
    | .map kvs =>
        rw [eqv_map, Bool.and_eq_true]
        refine ⟨by simp, ?_⟩
        rw [List.all_eq_true]
        intro p hp
        rw [lookupField_of_mem_nodup (wf_map_nodup hwf) (by exact hp)]
        have hszp : sizeOf p.2 < sizeOf (Tree.map kvs) := by
          have h1 := List.sizeOf_lt_of_mem hp
          have h2 := sizeOf_snd_le p
          simp at *
          omega
        exact ih (sizeOf (Tree.map kvs)) hsz p.2 hszp (wf_map_mem hwf hp)

theorem eqv_refl {a : Tree} (hwf : wf a = true) : eqv a a = true :=
  eqv_refl_aux (sizeOf a + 1) a (Nat.lt_succ_self _) hwf

/-! ## Unfolding equations for `diff` and composition lemmas for `applyPatch` -/

theorem diff_map_eq (akvs bkvs : List (String × Tree)) :
    diff (.map akvs) (.map bkvs)
      = (bkvs.flatMap (fun p =>
          match lookupField p.1 akvs with
          | none => [Op.add [] (.key p.1) p.2]
          | some ov => (diff ov p.2).map (prefixOp (.key p.1))))
        ++ ((akvs.filter (fun p => (lookupField p.1 bkvs).isNone)).map
             (fun p => Op.remove [] (.key p.1) p.2)) := by
  rw [diff]
  rw [attach_flatMap bkvs (fun p =>
    match lookupField p.1 akvs with
    | none => [Op.add [] (.key p.1) p.2]
    | some ov => (diff ov p.2).map (prefixOp (.key p.1)))]

theorem diff_list_eq (xs ys : List Tree) :
    diff (.list xs) (.list ys)
      = listRemoves xs ((matchedPairs (xs.map objectHash) (ys.map objectHash)).map Prod.fst)
        ++ listMoves xs ((matchedPairs (xs.map objectHash) (ys.map objectHash)).map Prod.fst)
        ++ listAdds ys (matchedPairs (xs.map objectHash) (ys.map objectHash))
        ++ (subPairs xs ys (matchedPairs (xs.map objectHash) (ys.map objectHash))).flatMap
             (fun q => (diff q.1 q.2.1).map (prefixOp (.idx q.2.2))) := by
  rw [diff]
  rw [attach_flatMap (subPairs xs ys (matchedPairs (xs.map objectHash) (ys.map objectHash)))
    (fun q => (diff q.1 q.2.1).map (prefixOp (.idx q.2.2)))]

theorem applyPatch_append (p q : List Op) (t : Tree) :
    applyPatch t (p ++ q)
      = match applyPatch t p with
        | .ok t1 => applyPatch t1 q
        | .error e => .error e := by
  induction p generalizing t with
  | nil => rw [List.nil_append, applyPatch]
  | cons op rest ih =>
      rw [List.cons_append, applyPatch, applyPatch]
      cases applyOp t op with
      | ok t1 => exact ih t1
      | error e => rfl

theorem setField_lookup_self {k : String} {v : Tree} :
    ∀ (kvs : List (String × Tree)), lookupField k kvs = some v →
      setField k v kvs = kvs := by
  intro kvs
  induction kvs with
  | nil => intro h; rfl
  | cons p rest ih =>
      intro hv
      rw [lookupField] at hv
      rw [setField]
      by_cases hk : p.1 == k
      · rw [if_pos hk] at hv
        rw [if_pos hk]
        obtain ⟨hp2⟩ := hv
        rfl
      · rw [if_neg hk] at hv
        rw [if_neg hk, ih hv]

theorem setField_setField (k : String) (w w2 : Tree) :
    ∀ (kvs : List (String × Tree)),
      setField k w2 (setField k w kvs) = setField k w2 kvs := by
  intro kvs
  induction kvs with
  | nil => rfl
  | cons p rest ih =>
      rw [setField]
      by_cases hk : p.1 == k
      · rw [if_pos hk, setField, if_pos (by simpa using hk), setField, if_pos hk]
      · rw [if_neg hk, setField, if_neg hk, setField, if_neg hk, ih]

theorem applyOp_prefix_key (k : String) (kvs : List (String × Tree)) (v : Tree)
    (hv : lookupField k kvs = some v) (op : Op) :
    applyOp (.map kvs) (prefixOp (.key k) op)
      = match applyOp v op with
        | .ok w => .ok (.map (setField k w kvs))
        | .error e => .error e := by
  cases op with
  | add parent entry w =>
      rw [prefixOp, applyOp, applyOp, applyAt, hv]
      dsimp only
      cases applyAt v parent _ <;> rfl
  | remove parent entry old =>
      rw [prefixOp, applyOp, applyOp, applyAt, hv]
      dsimp only
      cases applyAt v parent _ <;> rfl
  | replace path old new =>
      rw [prefixOp, applyOp, applyOp, applyAt, hv]
      dsimp only
      cases applyAt v path _ <;> rfl
  | move parent src dst =>
      rw [prefixOp, applyOp, applyOp, applyAt, hv]
      dsimp only
      cases applyAt v parent _ <;> rfl

theorem applyPatch_prefix_key (k : String) (ops : List Op) :
    ∀ (kvs : List (String × Tree)) (v : Tree), lookupField k kvs = some v →
    applyPatch (.map kvs) (ops.map (prefixOp (.key k)))
      = match applyPatch v ops with
        | .ok w => .ok (.map (setField k w kvs))
        | .error e => .error e := by
  induction ops with
  | nil =>
      intro kvs v hv
      rw [List.map_nil, applyPatch, applyPatch]
      dsimp only
      rw [setField_lookup_self kvs hv]
  | cons op rest ih =>
      intro kvs v hv
      rw [List.map_cons, applyPatch, applyOp_prefix_key k kvs v hv op, applyPatch]
      cases hop : applyOp v op with
      | error e => rfl
      | ok w =>
          dsimp only
          rw [ih (setField k w kvs) w (lookupField_setField_self (by rw [hv]; rfl) w)]
          cases applyPatch w rest with
          | error e => rfl
          | ok w2 =>
              dsimp only
              rw [setField_setField]

theorem set_getElem?_self : ∀ (l : List Tree) (i : Nat) (x : Tree),
    l[i]? = some x → l.set i x = l := by
  intro l
  induction l with
  | nil => intro i x h; simp at h
  | cons y rest ih =>
      intro i x h
      cases i with
      | zero =>
          simp at h
          rw [List.set_cons_zero, h]
      | succ i2 =>
          simp at h
          rw [List.set_cons_succ, ih i2 x h]

theorem applyOp_prefix_idx (j : Nat) (ws : List Tree) (w : Tree)
    (hw : ws[j]? = some w) (op : Op) :
    applyOp (.list ws) (prefixOp (.idx j) op)
      = match applyOp w op with
        | .ok w2 => .ok (.list (ws.set j w2))
        | .error e => .error e := by
  cases op with
  | add parent entry v =>
      rw [prefixOp, applyOp, applyOp, applyAt, hw]
      dsimp only
      cases applyAt w parent _ <;> rfl
  | remove parent entry old =>
      rw [prefixOp, applyOp, applyOp, applyAt, hw]
      dsimp only
      cases applyAt w parent _ <;> rfl
  | replace path old new =>
      rw [prefixOp, applyOp, applyOp, applyAt, hw]
      dsimp only
      cases applyAt w path _ <;> rfl
  | move parent src dst =>
      rw [prefixOp, applyOp, applyOp, applyAt, hw]
      dsimp only
      cases applyAt w parent _ <;> rfl

theorem applyPatch_prefix_idx (j : Nat) (ops : List Op) :
    ∀ (ws : List Tree) (w : Tree), ws[j]? = some w →
    applyPatch (.list ws) (ops.map (prefixOp (.idx j)))
      = match applyPatch w ops with
        | .ok w2 => .ok (.list (ws.set j w2))
        | .error e => .error e := by
  induction ops with
  | nil =>
      intro ws w hw
      rw [List.map_nil, applyPatch, applyPatch]
      dsimp only
      rw [set_getElem?_self ws j w hw]
  | cons op rest ih =>
      intro ws w hw
      have hjlen : j < ws.length := by
        by_contra hcon
        rw [List.getElem?_eq_none (Nat.le_of_not_lt hcon)] at hw
        cases hw
      rw [List.map_cons, applyPatch, applyOp_prefix_idx j ws w hw op, applyPatch]
      cases hop : applyOp w op with
      | error e => rfl
      | ok w2 =>
          dsimp only
          rw [ih (ws.set j w2) w2 (by rw [List.getElem?_set_self]; simp [hjlen])]
          cases applyPatch w2 rest with
          | error e => rfl
          | ok w3 =>
              dsimp only
              rw [List.set_set]

/-! ## The self-diff is empty (claim C8 machinery) -/

theorem countOcc_cons (x : String) (l : List String) (h : String) :
    countOcc (x :: l) h = (if x == h then 1 else 0) + countOcc l h := by
  rw [countOcc, countOcc, List.filter_cons]
  by_cases hx : x == h <;> simp [hx] <;> omega

theorem nthOccIdx_cons (x : String) (rest : List String) (h : String) (c : Nat) :
    nthOccIdx (x :: rest) h c
      = if x == h then
          match c with
          | 0 => some 0
          | Nat.succ c2 => (nthOccIdx rest h c2).map (· + 1)
        else (nthOccIdx rest h c).map (· + 1) := by
  rw [nthOccIdx.eq_def]

theorem nthOccIdx_self : ∀ (l : List String) (j : Nat) (h : String),
    l[j]? = some h → nthOccIdx l h (countOcc (l.take j) h) = some j := by
  intro l
  induction l with
  | nil => intro j h hj; simp at hj
  | cons x rest ih =>
      intro j h hj
      cases j with
      | zero =>
          simp at hj
          rw [List.take_zero, countOcc, List.filter_nil, List.length_nil, nthOccIdx_cons]
          rw [if_pos (by simp [hj])]
      | succ j2 =>
          simp only [List.getElem?_cons_succ] at hj
          rw [List.take_succ_cons, countOcc_cons, nthOccIdx_cons]
          by_cases hx : x == h
          · rw [if_pos hx, if_pos hx]
            have hcomm : (1 : Nat) + countOcc (rest.take j2) h
                = Nat.succ (countOcc (rest.take j2) h) := by
              omega
            rw [hcomm]
            dsimp only
            rw [ih j2 h hj]
            rfl
          · rw [if_neg hx, if_neg hx]
            rw [Nat.zero_add, ih j2 h hj]
            rfl

theorem partnerIdx_self (l : List String) (j : Nat) (hj : j < l.length) :
    partnerIdx l l j = some j := by
  rw [partnerIdx]
  cases hl : l[j]? with
  | none =>
      rw [List.getElem?_eq_none_iff] at hl
      omega
  | some h => exact nthOccIdx_self l j h hl

theorem filterMap_eq_map_of (l : List α) (f : α → Option β) (g : α → β)
    (h : ∀ x ∈ l, f x = some (g x)) : l.filterMap f = l.map g := by
  induction l with
  | nil => rfl
  | cons x rest ih =>
      rw [List.filterMap_cons, h x (List.mem_cons_self x rest), List.map_cons,
        ih (fun y hy => h y (List.mem_cons_of_mem x hy))]

theorem matchedPairs_self (l : List String) :
    matchedPairs l l = (List.range l.length).map (fun j => (j, j)) := by
  rw [matchedPairs]
  apply filterMap_eq_map_of
  intro j hj
  rw [List.mem_range] at hj
  rw [partnerIdx_self l j (by simpa using hj)]
  rfl

theorem indexOf_map_add_one (k : Nat) (l : List Nat) :
    (l.map (· + 1)).indexOf (k + 1) = l.indexOf k := by
  induction l with
  | nil => rfl
  | cons a rest ih =>
      rw [List.map_cons]
      by_cases ha : a = k
      · rw [ha]
        simp [List.indexOf_cons_self]
      · rw [List.indexOf_cons_ne _ (by omega), List.indexOf_cons_ne _ (by omega), ih]

theorem indexOf_range (k n : Nat) (h : k < n) : (List.range n).indexOf k = k := by
  induction n generalizing k with
  | zero => omega
  | succ m ih =>
      rw [List.range_succ_eq_map]
      cases k with
      | zero => simp [List.indexOf_cons_self]
      | succ k2 =>
          rw [List.indexOf_cons_ne _ (by omega), indexOf_map_add_one, ih k2 (by omega)]

theorem movesAux_eq_nil : ∀ (tgt sim : List Nat) (j : Nat),
    (∀ k t, tgt[k]? = some t → sim.indexOf t = j + k) →
    movesAux sim tgt j = [] := by
  intro tgt
  induction tgt with
  | nil => intro sim j h; rw [movesAux]
  | cons t ts ih =>
      intro sim j h
      rw [movesAux]
      have h0 : sim.indexOf t = j := by
        have := h 0 t (by simp)
        omega
      rw [if_pos h0]
      apply ih
      intro k t2 hk
      have := h (k + 1) t2 (by simpa using hk)
      omega

theorem enum_eq_range_map (l : List Tree) :
    l.enum = (List.range l.length).map (fun j => (j, l.getD j Tree.null)) := by
  apply List.ext_getElem?
  intro i
  rw [List.getElem?_enum, List.getElem?_map]
  by_cases hi : i < l.length
  · rw [List.getElem?_range hi, List.getElem?_eq_getElem hi]
    simp [List.getD_eq_getElem?_getD, List.getElem?_eq_getElem hi]
  · have h1 : l[i]? = none := List.getElem?_eq_none (by omega)
    have h2 : (List.range l.length)[i]? = none :=
      List.getElem?_eq_none (by simp; omega)
    rw [h1, h2]
    rfl

theorem fst_lt_of_mem_enum {l : List Tree} {p : Nat × Tree} (hp : p ∈ l.enum) :
    p.1 < l.length := by
  rw [enum_eq_range_map] at hp
  obtain ⟨j, hj, hpj⟩ := List.mem_map.mp hp
  rw [List.mem_range] at hj
  rw [← hpj]
  exact hj

theorem isNone_false_of_mem {k : String} {v : Tree} {l : List (String × Tree)}
    (h : (k, v) ∈ l) : (lookupField k l).isNone = false := by
  have hs := lookupField_isSome_of_mem h
  cases hl : lookupField k l with
  | none => rw [hl] at hs; cases hs
  | some w => rfl

theorem diff_self_aux : ∀ (n : Nat) (a : Tree), sizeOf a < n → wf a = true →
    diff a a = [] := by
  intro n
  induction n using Nat.strong_induction_on with
  | _ n ih =>
    intro a hsz hwf
    match a with
    | .null => simp [diff, scalarEq]
    | .bool b => simp [diff, scalarEq]
    | .num m => simp [diff, scalarEq]
    | .str s => simp [diff, scalarEq]
    | .map kvs =>
        rw [diff_map_eq, List.append_eq_nil]
        constructor
        · rw [List.bind_eq_nil]
          intro p hp
          rw [lookupField_of_mem_nodup (wf_map_nodup hwf) (by exact hp)]
          have hszp : sizeOf p.2 < sizeOf (Tree.map kvs) := by
            have h1 := List.sizeOf_lt_of_mem hp
            have h2 := sizeOf_snd_le p
            simp at *
            omega
          dsimp only
          rw [ih (sizeOf (Tree.map kvs)) hsz p.2 hszp (wf_map_mem hwf hp)]
          rfl
        · rw [List.map_eq_nil, List.filter_eq_nil_iff]
          intro p hp
          rw [isNone_false_of_mem (show (p.1, p.2) ∈ kvs from hp)]
          simp
    | .list xs =>
        rw [diff_list_eq]
        have hmp : matchedPairs (xs.map objectHash) (xs.map objectHash)
            = (List.range xs.length).map (fun j => (j, j)) := by
          rw [matchedPairs_self, List.length_map]
        have hmo : ((List.range xs.length).map (fun j => (j, j))).map Prod.fst
            = List.range xs.length := by
          have hcomp : (Prod.fst ∘ fun j : Nat => (j, j)) = id := rfl
          rw [List.map_map, hcomp, List.map_id]
        rw [hmp, hmo]
        have hrem : listRemoves xs (List.range xs.length) = [] := by
          rw [listRemoves]
          have hfil : xs.enum.filter (fun p => !((List.range xs.length).contains p.1)) = [] := by
            rw [List.filter_eq_nil_iff]
            intro p hp
            have hp1 := fst_lt_of_mem_enum hp
            simpa using hp1
          rw [hfil]
          rfl
        have hmov : listMoves xs (List.range xs.length) = [] := by
          rw [listMoves]
          have htok : (List.range xs.length).filter
              (fun i => (List.range xs.length).contains i) = List.range xs.length :=
            List.filter_eq_self.mpr (fun i hi => List.elem_eq_true_of_mem hi)
          rw [htok]
          apply movesAux_eq_nil
          intro k t hk
          have hkl : k < xs.length := by
            by_contra hcon
            rw [List.getElem?_eq_none (by simpa using Nat.le_of_not_lt hcon)] at hk
            cases hk
          rw [List.getElem?_range hkl] at hk
          have ht : t = k := by
            injection hk with hk2
            omega
          rw [ht, indexOf_range k _ hkl, Nat.zero_add]
        have hadd : listAdds xs ((List.range xs.length).map (fun j => (j, j))) = [] := by
          rw [listAdds]
          have hfil : xs.enum.filter
              (fun p => !(((List.range xs.length).map (fun j => (j, j))).any
                (fun q => q.2 == p.1))) = [] := by
            rw [List.filter_eq_nil_iff]
            intro p hp
            have hp1 := fst_lt_of_mem_enum hp
            have hany : ((List.range xs.length).map (fun j => (j, j))).any
                (fun q => q.2 == p.1) = true := by
              rw [List.any_eq_true]
              exact ⟨(p.1, p.1), List.mem_map_of_mem _ (List.mem_range.mpr hp1), by simp⟩
            simp [hany]
          rw [hfil]
          rfl
        have hsub : (subPairs xs xs ((List.range xs.length).map (fun j => (j, j)))).flatMap
            (fun q => (diff q.1 q.2.1).map (prefixOp (.idx q.2.2))) = [] := by
          rw [List.bind_eq_nil]
          intro q hq
          rw [subPairs] at hq
          obtain ⟨p, hpm, hf⟩ := List.mem_filterMap.mp hq
          obtain ⟨j, hjm, hpj⟩ := List.mem_map.mp hpm
          rw [← hpj] at hf
          cases hx : xs[j]? with
          | none => rw [hx] at hf; simp at hf
          | some o =>
              rw [hx] at hf
              simp at hf
              rw [← hf]
              dsimp only
              have hszo : sizeOf o < sizeOf (Tree.list xs) := by
                have := List.sizeOf_lt_of_mem (List.getElem?_mem hx)
                simp
                omega
              rw [ih (sizeOf (Tree.list xs)) hsz o hszo
                (wf_list_mem hwf (List.getElem?_mem hx))]
              rfl
        rw [hrem, hmov, hadd, hsub]
        rfl

/-- C8: diffing a well-formed tree against itself yields the empty patch:
scalars compare equal, map keys all match with empty recursive diffs and no
additions or removals, and list elements align one-to-one by identity hash
with no moves, additions, removals or interior changes. -/
theorem diff_self_empty (a : Tree) (hwf : wf a = true) : diff a a = [] :=
  diff_self_aux (sizeOf a + 1) a (Nat.lt_succ_self _) hwf

/-- Witness for C8 at a concrete tree: a map holding an id, a scalar and a
nested list. -/
theorem diff_self_empty_witness :
    diff (.map [("id", .num 1), ("x", .list [.str "a", .null])])
         (.map [("id", .num 1), ("x", .list [.str "a", .null])]) = [] :=
  diff_self_empty (.map [("id", .num 1), ("x", .list [.str "a", .null])])
    (by simp [wf, nodupKeys])

/-! ## Properties of the greedy hash alignment (claim C1 machinery) -/

theorem nthOccIdx_some : ∀ (l : List String) (h : String) (c i : Nat),
    nthOccIdx l h c = some i → i < l.length ∧ l[i]? = some h := by
  intro l
  induction l with
  | nil => intro h c i hi; rw [nthOccIdx] at hi; cases hi
  | cons x rest ih =>
      intro h c i hi
      rw [nthOccIdx_cons] at hi
      by_cases hx : x == h
      · rw [if_pos hx] at hi
        cases c with
        | zero =>
            injection hi with hi2
            rw [← hi2]
            refine ⟨by simp, ?_⟩
            rw [beq_iff_eq] at hx
            simp [hx]
        | succ c2 =>
            dsimp only at hi
            cases hn : nthOccIdx rest h c2 with
            | none => rw [hn] at hi; simp at hi
            | some i2 =>
                rw [hn] at hi
                simp at hi
                obtain ⟨hlt, hget⟩ := ih h c2 i2 hn
                rw [← hi]
                exact ⟨by simp; omega, by simpa using hget⟩
      · rw [if_neg hx] at hi
        cases hn : nthOccIdx rest h c with
        | none => rw [hn] at hi; simp at hi
        | some i2 =>
            rw [hn] at hi
            simp at hi
            obtain ⟨hlt, hget⟩ := ih h c i2 hn
            rw [← hi]
            exact ⟨by simp; omega, by simpa using hget⟩

theorem nthOccIdx_strictMono : ∀ (l : List String) (h : String) (c1 c2 i1 i2 : Nat),
    c1 < c2 → nthOccIdx l h c1 = some i1 → nthOccIdx l h c2 = some i2 → i1 < i2 := by
  intro l
  induction l with
  | nil => intro h c1 c2 i1 i2 hc h1 h2; rw [nthOccIdx] at h1; cases h1
  | cons x rest ih =>
      intro h c1 c2 i1 i2 hc h1 h2
      rw [nthOccIdx_cons] at h1 h2
      by_cases hx : x == h
      · rw [if_pos hx] at h1 h2
        cases c1 with
        | zero =>
            simp at h1
            cases c2 with
            | zero => omega
            | succ c2b =>
                dsimp only at h2
                cases hn : nthOccIdx rest h c2b with
                | none => rw [hn] at h2; simp at h2
                | some j2 =>
                    rw [hn] at h2
                    simp at h2
                    omega
        | succ c1b =>
            cases c2 with
            | zero => omega
            | succ c2b =>
                dsimp only at h1 h2
                cases hn1 : nthOccIdx rest h c1b with
                | none => rw [hn1] at h1; simp at h1
                | some j1 =>
                    cases hn2 : nthOccIdx rest h c2b with
                    | none => rw [hn2] at h2; simp at h2
                    | some j2 =>
                        rw [hn1] at h1
                        rw [hn2] at h2
                        simp at h1 h2
                        have := ih h c1b c2b j1 j2 (by omega) hn1 hn2
                        omega
      · rw [if_neg hx] at h1 h2
        cases hn1 : nthOccIdx rest h c1 with
        | none => rw [hn1] at h1; simp at h1
        | some j1 =>
            cases hn2 : nthOccIdx rest h c2 with
            | none => rw [hn2] at h2; simp at h2
            | some j2 =>
                rw [hn1] at h1
                rw [hn2] at h2
                simp at h1 h2
                have := ih h c1 c2 j1 j2 hc hn1 hn2
                omega

theorem countOcc_append (l m : List String) (h : String) :
    countOcc (l ++ m) h = countOcc l h + countOcc m h := by
  rw [countOcc, countOcc, countOcc, List.filter_append, List.length_append]

theorem countOcc_take_lt {hy : List String} {j1 j2 : Nat} {h : String}
    (hj : j1 < j2) (hget : hy[j1]? = some h) :
    countOcc (hy.take j1) h < countOcc (hy.take j2) h := by
  have hsplit : hy.take j2 = hy.take (j1 + 1) ++ (hy.take j2).drop (j1 + 1) := by
    conv_lhs => rw [← List.take_append_drop (j1 + 1) (hy.take j2)]
    rw [List.take_take, Nat.min_eq_left (by omega)]
  rw [hsplit, countOcc_append]
  have hstep : countOcc (hy.take (j1 + 1)) h = countOcc (hy.take j1) h + 1 := by
    rw [List.take_succ, hget, countOcc_append]
    simp [countOcc]
  omega

theorem mem_matchedPairs {hx hy : List String} {i j : Nat} :
    (i, j) ∈ matchedPairs hx hy ↔ (j < hy.length ∧ partnerIdx hx hy j = some i) := by
  rw [matchedPairs, List.mem_filterMap]
  constructor
  · rintro ⟨j2, hj2, hf⟩
    rw [List.mem_range] at hj2
    cases hp : partnerIdx hx hy j2 with
    | none => rw [hp] at hf; cases hf
    | some i2 =>
        rw [hp] at hf
        simp at hf
        obtain ⟨hi2, hj2b⟩ := hf
        rw [← hj2b, ← hi2] at *
        exact ⟨hj2, hp⟩
  · rintro ⟨hj, hp⟩
    exact ⟨j, List.mem_range.mpr hj, by rw [hp]; rfl⟩

theorem partnerIdx_some {hx hy : List String} {i j : Nat}
    (h : partnerIdx hx hy j = some i) :
    i < hx.length ∧ hx[i]? = hy[j]? := by
  rw [partnerIdx] at h
  cases hj : hy[j]? with
  | none => rw [hj] at h; cases h
  | some hh =>
      rw [hj] at h
      obtain ⟨hlt, hget⟩ := nthOccIdx_some hx hh _ i h
      exact ⟨hlt, by rw [hget]⟩

theorem partnerIdx_inj {hx hy : List String} {i j1 j2 : Nat}
    (h1 : partnerIdx hx hy j1 = some i) (h2 : partnerIdx hx hy j2 = some i) :
    j1 = j2 := by
  by_contra hne
  have key : ∀ {ja jb : Nat}, ja < jb → partnerIdx hx hy ja = some i →
      partnerIdx hx hy jb = some i → False := by
    intro ja jb hab ha hb
    have hga := (partnerIdx_some ha).2
    have hgb := (partnerIdx_some hb).2
    rw [partnerIdx] at ha hb
    cases hja : hy[ja]? with
    | none => rw [hja] at ha; cases ha
    | some sa =>
        cases hjb : hy[jb]? with
        | none => rw [hjb] at hb; cases hb
        | some sb =>
            rw [hja] at ha
            rw [hjb] at hb
            have hsame : sa = sb := by
              rw [hja] at hga
              rw [hjb] at hgb
              rw [hga] at hgb
              injection hgb
            rw [hsame] at ha hja
            have hclt := countOcc_take_lt hab hja
            have := nthOccIdx_strictMono hx sb _ _ i i hclt ha hb
            omega
  rcases Nat.lt_or_ge j1 j2 with h | h
  · exact key h h1 h2
  · exact key (by omega) h2 h1

theorem matchedPairs_fst_nodup_aux (hx hy : List String) :
    ∀ (l : List Nat), l.Pairwise (· < ·) →
      (l.filterMap (fun j => (partnerIdx hx hy j).map (fun i => (i, j)))).Pairwise
        (fun p q => p.1 ≠ q.1) := by
  intro l
  induction l with
  | nil => intro h; exact List.Pairwise.nil
  | cons j rest ih =>
      intro h
      rw [List.pairwise_cons] at h
      rw [List.filterMap_cons]
      cases hp : partnerIdx hx hy j with
      | none => exact ih h.2
      | some i =>
          rw [show Option.map (fun i => (i, j)) (some i) = some (i, j) from rfl]
          dsimp only
          rw [List.pairwise_cons]
          refine ⟨?_, ih h.2⟩
          intro q hq
          obtain ⟨j2, hj2, hf⟩ := List.mem_filterMap.mp hq
          cases hp2 : partnerIdx hx hy j2 with
          | none => rw [hp2] at hf; cases hf
          | some i2 =>
              rw [hp2] at hf
              simp at hf
              rw [← hf]
              dsimp only
              intro hii
              rw [hii] at hp
              have := partnerIdx_inj hp hp2
              have := h.1 j2 hj2
              omega

theorem matchedPairs_fst_nodup (hx hy : List String) :
    ((matchedPairs hx hy).map Prod.fst).Nodup := by
  rw [matchedPairs, List.Nodup, List.pairwise_map]
  exact matchedPairs_fst_nodup_aux hx hy (List.range hy.length)
    (List.pairwise_lt_range hy.length)

theorem matchedPairs_snd_eq_filter (hx hy : List String) :
    (matchedPairs hx hy).map Prod.snd
      = (List.range hy.length).filter (fun j => (partnerIdx hx hy j).isSome) := by
  rw [matchedPairs]
  have haux : ∀ l : List Nat,
      (l.filterMap (fun j => (partnerIdx hx hy j).map (fun i => (i, j)))).map Prod.snd
        = l.filter (fun j => (partnerIdx hx hy j).isSome) := by
    intro l
    induction l with
    | nil => rfl
    | cons j rest ih =>
        rw [List.filterMap_cons, List.filter_cons]
        cases hp : partnerIdx hx hy j with
        | none => simpa using ih
        | some i =>
            rw [show Option.map (fun i => (i, j)) (some i) = some (i, j) from rfl]
            dsimp only
            rw [List.map_cons, ih]
            simp
  exact haux _

theorem matchedPairs_snd_nodup (hx hy : List String) :
    ((matchedPairs hx hy).map Prod.snd).Nodup := by
  rw [matchedPairs_snd_eq_filter]
  exact (List.nodup_range hy.length).filter _

/-! ## Map-case roundtrip machinery -/

theorem eqv_of_lookup {xs ys : List (String × Tree)}
    (hnx : (xs.map Prod.fst).Nodup)
    (hlen : xs.length = ys.length)
    (hrel : ∀ k v, lookupField k xs = some v →
      ∃ w, lookupField k ys = some w ∧ eqv v w = true) :
    eqv (.map xs) (.map ys) = true := by
  rw [eqv_map, Bool.and_eq_true]
  refine ⟨by simp [hlen], ?_⟩
  rw [List.all_eq_true]
  intro p hp
  obtain ⟨w, hw, he⟩ := hrel p.1 p.2 (lookupField_of_mem_nodup hnx (by exact hp))
  rw [hw]
  exact he

theorem mapPhaseA (N : Nat) (akvs : List (String × Tree))
    (IH : ∀ (a2 b2 : Tree), sizeOf b2 < N → wf a2 = true → wf b2 = true →
      ∃ c, applyPatch a2 (diff a2 b2) = .ok c ∧ eqv c b2 = true)
    (hwfA : ∀ p ∈ akvs, wf p.2 = true) :
    ∀ (bk : List (String × Tree)) (cur : List (String × Tree)),
      (bk.map Prod.fst).Nodup →
      (∀ p ∈ bk, sizeOf p.2 < N) →
      (∀ p ∈ bk, wf p.2 = true) →
      (cur.map Prod.fst).Nodup →
      (∀ p ∈ bk, lookupField p.1 cur = lookupField p.1 akvs) →
      ∃ fin, applyPatch (.map cur)
          (bk.flatMap (fun p =>
            match lookupField p.1 akvs with
            | none => [Op.add [] (.key p.1) p.2]
            | some ov => (diff ov p.2).map (prefixOp (.key p.1))))
          = .ok (.map fin) ∧
        (∀ k nv, lookupField k bk = some nv →
          ∃ c, lookupField k fin = some c ∧ eqv c nv = true) ∧
        (∀ k, lookupField k bk = none → lookupField k fin = lookupField k cur) ∧
        (fin.map Prod.fst).Nodup ∧
        fin.length = cur.length
          + (bk.filter (fun p => (lookupField p.1 akvs).isNone)).length := by
  intro bk
  induction bk with
  | nil =>
      intro cur hbnd hbsz hbwf hcnd hcur
      refine ⟨cur, by rw [List.flatMap_nil, applyPatch], ?_, ?_, hcnd, by simp⟩
      · intro k nv hk
        rw [lookupField] at hk
        cases hk
      · intro k hk
        rfl
  | cons p bk2 ih =>
      intro cur hbnd hbsz hbwf hcnd hcur
      obtain ⟨k, nv⟩ := p
      rw [List.map_cons, List.nodup_cons] at hbnd
      have hlookupcur : lookupField k cur = lookupField k akvs :=
        hcur (k, nv) (List.mem_cons_self _ _)
      rw [List.flatMap_cons, applyPatch_append]
      cases hak : lookupField k akvs with
      | none =>
          have hnone : lookupField k cur = none := by rw [hlookupcur, hak]
          have hstep : applyPatch (.map cur) [Op.add [] (.key k) nv]
              = .ok (.map (cur ++ [(k, nv)])) := by
            rw [applyPatch, applyOp, applyAt]
            dsimp only
            rw [hnone]
            rfl
          rw [hstep]
          have hcnd2 : ((cur ++ [(k, nv)]).map Prod.fst).Nodup := by
            rw [List.map_append]
            rw [List.nodup_append]
            refine ⟨hcnd, by simp, ?_⟩
            intro x hx
            simp only [List.map_cons, List.map_nil, List.mem_singleton]
            intro hxk
            rw [lookupField_eq_none_iff] at hnone
            rw [hxk] at hx
            exact hnone hx
          have hcur2 : ∀ q ∈ bk2, lookupField q.1 (cur ++ [(k, nv)])
              = lookupField q.1 akvs := by
            intro q hq
            rw [lookupField_append]
            have hqk : q.1 ≠ k := by
              intro hqk2
              have hmem2 := List.mem_map_of_mem Prod.fst hq
              rw [hqk2] at hmem2
              exact hbnd.1 hmem2
            cases hc : lookupField q.1 cur with
            | some v =>
                rw [← hcur q (List.mem_cons_of_mem _ hq), hc]
            | none =>
                dsimp only
                rw [lookupField, if_neg (by simpa using fun h => hqk h.symm), lookupField]
                rw [← hcur q (List.mem_cons_of_mem _ hq), hc]
          obtain ⟨fin, hfin, hc1, hc2, hc3, hc4⟩ :=
            ih (cur ++ [(k, nv)]) hbnd.2
              (fun q hq => hbsz q (List.mem_cons_of_mem _ hq))
              (fun q hq => hbwf q (List.mem_cons_of_mem _ hq))
              hcnd2 hcur2
          refine ⟨fin, hfin, ?_, ?_, hc3, ?_⟩
          · intro k2 nv2 hk2
            rw [lookupField] at hk2
            by_cases hkk : k == k2
            · rw [if_pos hkk] at hk2
              injection hk2 with hk2b
              rw [beq_iff_eq] at hkk
              have hbk2none : lookupField k2 bk2 = none := by
                rw [lookupField_eq_none_iff]
                rw [← hkk]
                exact hbnd.1
              rw [hc2 k2 hbk2none]
              rw [← hkk]
              rw [lookupField_append, hnone]
              dsimp only
              rw [lookupField, if_pos (by simp)]
              refine ⟨nv, rfl, ?_⟩
              rw [← hk2b]
              exact eqv_refl (hbwf (k, nv) (List.mem_cons_self _ _))
            · rw [if_neg hkk] at hk2
              exact hc1 k2 nv2 hk2
          · intro k2 hk2
            rw [lookupField] at hk2
            by_cases hkk : k == k2
            · rw [if_pos hkk] at hk2
              cases hk2
            · rw [if_neg hkk] at hk2
              rw [hc2 k2 hk2, lookupField_append]
              cases hc : lookupField k2 cur with
              | some v => rfl
              | none =>
                  dsimp only
                  rw [lookupField, if_neg hkk, lookupField]
          · rw [hc4]
            rw [List.filter_cons]
            rw [if_pos (by rw [hak]; rfl)]
            simp
            omega
      | some ov =>
          have hsome : lookupField k cur = some ov := by rw [hlookupcur, hak]
          have hwfov : wf ov = true := hwfA (k, ov) (lookupField_mem hak)
          obtain ⟨c, hap, he⟩ := IH ov nv
            (hbsz (k, nv) (List.mem_cons_self _ _))
            hwfov (hbwf (k, nv) (List.mem_cons_self _ _))
          have hstep : applyPatch (.map cur) ((diff ov nv).map (prefixOp (.key k)))
              = .ok (.map (setField k c cur)) := by
            rw [applyPatch_prefix_key k (diff ov nv) cur ov hsome, hap]
          rw [hstep]
          have hcnd2 : ((setField k c cur).map Prod.fst).Nodup := by
            rw [keys_setField]
            exact hcnd
          have hcur2 : ∀ q ∈ bk2, lookupField q.1 (setField k c cur)
              = lookupField q.1 akvs := by
            intro q hq
            have hqk : q.1 ≠ k := by
              intro hqk2
              have hmem2 := List.mem_map_of_mem Prod.fst hq
              rw [hqk2] at hmem2
              exact hbnd.1 hmem2
            rw [lookupField_setField_ne cur hqk c]
            exact hcur q (List.mem_cons_of_mem _ hq)
          obtain ⟨fin, hfin, hc1, hc2, hc3, hc4⟩ :=
            ih (setField k c cur) hbnd.2
              (fun q hq => hbsz q (List.mem_cons_of_mem _ hq))
              (fun q hq => hbwf q (List.mem_cons_of_mem _ hq))
              hcnd2 hcur2
          refine ⟨fin, hfin, ?_, ?_, hc3, ?_⟩
          · intro k2 nv2 hk2
            rw [lookupField] at hk2
            by_cases hkk : k == k2
            · rw [if_pos hkk] at hk2
              injection hk2 with hk2b
              rw [beq_iff_eq] at hkk
              have hbk2none : lookupField k2 bk2 = none := by
                rw [lookupField_eq_none_iff]
                rw [← hkk]
                exact hbnd.1
              rw [hc2 k2 hbk2none]
              rw [← hkk]
              rw [lookupField_setField_self (by rw [hsome]; rfl) c]
              exact ⟨c, rfl, by rw [← hk2b]; exact he⟩
            · rw [if_neg hkk] at hk2
              exact hc1 k2 nv2 hk2
          · intro k2 hk2
            rw [lookupField] at hk2
            by_cases hkk : k == k2
            · rw [if_pos hkk] at hk2
              cases hk2
            · rw [if_neg hkk] at hk2
              rw [hc2 k2 hk2]
              exact lookupField_setField_ne cur
                (by rw [beq_iff_eq] at hkk; exact fun h => hkk h.symm) c
          · rw [hc4, length_setField]
            rw [List.filter_cons]
            rw [if_neg (by rw [hak]; simp)]

theorem mapPhaseB :
    ∀ (rm : List (String × Tree)) (cur : List (String × Tree)),
      (rm.map Prod.fst).Nodup →
      (cur.map Prod.fst).Nodup →
      (∀ p ∈ rm, lookupField p.1 cur = some p.2 ∧ wf p.2 = true) →
      ∃ fin, applyPatch (.map cur)
          (rm.map (fun p => Op.remove [] (.key p.1) p.2)) = .ok (.map fin) ∧
        (∀ k, k ∈ rm.map Prod.fst → lookupField k fin = none) ∧
        (∀ k, k ∉ rm.map Prod.fst → lookupField k fin = lookupField k cur) ∧
        (fin.map Prod.fst).Nodup ∧
        fin.length + rm.length = cur.length := by
  intro rm
  induction rm with
  | nil =>
      intro cur hrnd hcnd hval
      exact ⟨cur, by rw [List.map_nil, applyPatch], by simp, fun k hk => rfl, hcnd, by simp⟩
  | cons p rm2 ih =>
      intro cur hrnd hcnd hval
      obtain ⟨k, ov⟩ := p
      rw [List.map_cons, List.nodup_cons] at hrnd
      obtain ⟨hlk, hwfov⟩ := hval (k, ov) (List.mem_cons_self _ _)
      have hstep : applyOp (.map cur) (Op.remove [] (.key k) ov)
          = .ok (.map (eraseField k cur)) := by
        rw [applyOp, applyAt]
        dsimp only
        rw [hlk]
        dsimp only
        rw [if_pos (eqv_refl hwfov)]
      rw [List.map_cons, applyPatch, hstep]
      have hcnd2 : ((eraseField k cur).map Prod.fst).Nodup := by
        rw [keys_eraseField]
        exact hcnd.erase k
      have hval2 : ∀ q ∈ rm2, lookupField q.1 (eraseField k cur) = some q.2 ∧
          wf q.2 = true := by
        intro q hq
        have hqk : q.1 ≠ k := by
          intro hqk2
          have hmem2 := List.mem_map_of_mem Prod.fst hq
          rw [hqk2] at hmem2
          exact hrnd.1 hmem2
        rw [lookupField_eraseField_ne cur hqk]
        exact hval q (List.mem_cons_of_mem _ hq)
      obtain ⟨fin, hfin, hc1, hc2, hc3, hc4⟩ := ih (eraseField k cur) hrnd.2 hcnd2 hval2
      refine ⟨fin, hfin, ?_, ?_, hc3, ?_⟩
      · intro k2 hk2
        rw [List.map_cons] at hk2
        rcases List.mem_cons.mp hk2 with h | h
        · dsimp only at h
          rw [h]
          have hknotin : k ∉ rm2.map Prod.fst := hrnd.1
          rw [hc2 k hknotin]
          exact lookupField_eraseField_self hcnd
        · exact hc1 k2 h
      · intro k2 hk2
        rw [List.map_cons] at hk2
        have hk2ne : k2 ≠ k := by
          intro hc
          exact hk2 (by rw [hc]; exact List.mem_cons_self _ _)
        have hk2nin : k2 ∉ rm2.map Prod.fst := by
          intro hc
          exact hk2 (List.mem_cons_of_mem _ hc)
        rw [hc2 k2 hk2nin]
        exact lookupField_eraseField_ne cur hk2ne
      · have hlen : (eraseField k cur).length + 1 = cur.length :=
          length_eraseField (by rw [hlk]; rfl)
        rw [List.length_cons]
        omega

theorem countP_add_countP_not (l : List α) (p : α → Bool) :
    l.countP p + l.countP (fun a => !p a) = l.length := by
  induction l with
  | nil => rfl
  | cons x rest ih =>
      rw [List.countP_cons, List.countP_cons, List.length_cons]
      by_cases hx : p x <;> simp [hx] <;> omega

theorem countP_or_disjoint (l : List α) (p q : α → Bool)
    (h : ∀ x ∈ l, ¬(p x = true ∧ q x = true)) :
    l.countP (fun x => p x || q x) = l.countP p + l.countP q := by
  induction l with
  | nil => rfl
  | cons x rest ih =>
      rw [List.countP_cons, List.countP_cons, List.countP_cons,
        ih (fun y hy => h y (List.mem_cons_of_mem _ hy))]
      by_cases hp : p x
      · have hq : ¬(q x = true) := fun hq => h x (List.mem_cons_self _ _) ⟨hp, hq⟩
        simp [hp, hq]
        try omega
      · by_cases hq : q x <;> simp [hp, hq] <;> omega

theorem common_count (akvs bkvs : List (String × Tree))
    (ha : (akvs.map Prod.fst).Nodup) (hb : (bkvs.map Prod.fst).Nodup) :
    akvs.countP (fun p => (lookupField p.1 bkvs).isSome)
      = bkvs.countP (fun p => (lookupField p.1 akvs).isSome) := by
  induction akvs with
  | nil =>
      rw [List.countP_nil]
      symm
      rw [List.countP_eq_zero]
      intro q hq
      rw [lookupField]
      simp
  | cons p rest ih =>
      obtain ⟨k, v⟩ := p
      rw [List.map_cons, List.nodup_cons] at ha
      rw [List.countP_cons]
      have hrhs : bkvs.countP (fun q => (lookupField q.1 ((k, v) :: rest)).isSome)
          = bkvs.countP (fun q => (k == q.1) || (lookupField q.1 rest).isSome) := by
        apply List.countP_congr
        intro q hq
        rw [lookupField]
        by_cases hkq : k == q.1
        · rw [if_pos (show ((k, v).1 == q.1) = true from hkq)]
          simp [hkq]
        · rw [if_neg (show ¬((k, v).1 == q.1) = true from hkq)]
          simp [hkq]
      rw [hrhs]
      rw [countP_or_disjoint]
      · have hcnt : bkvs.countP (fun q => k == q.1)
            = if (lookupField k bkvs).isSome then 1 else 0 := by
          have hmapcnt : bkvs.countP (fun q => k == q.1)
              = (bkvs.map Prod.fst).count k := by
            rw [List.count, List.countP_map]
            apply List.countP_congr
            intro q hq
            simp [Function.comp]
            constructor
            · intro h2; rw [h2]
            · intro h2; rw [h2]
          rw [hmapcnt]
          by_cases hmem : k ∈ bkvs.map Prod.fst
          · rw [List.count_eq_one_of_mem hb hmem]
            have hks : (lookupField k bkvs).isSome = true := by
              obtain ⟨q, hq, hqk⟩ := List.mem_map.mp hmem
              have hq2 : (q.1, q.2) ∈ bkvs := by simpa using hq
              rw [hqk] at hq2
              exact lookupField_isSome_of_mem hq2
            rw [if_pos hks]
          · rw [List.count_eq_zero.mpr hmem]
            have hkn : lookupField k bkvs = none := by
              rw [lookupField_eq_none_iff]
              exact hmem
            rw [hkn]
            rfl
        rw [hcnt, ih ha.2]
        by_cases hks : (lookupField k bkvs).isSome
        · rw [if_pos hks]
          omega
        · rw [if_neg hks]
          omega
      · intro q hq
        rintro ⟨h1, h2⟩
        rw [beq_iff_eq] at h1
        rw [← h1] at h2
        have hanone : lookupField k rest = none := by
          rw [lookupField_eq_none_iff]
          exact ha.1
        rw [hanone] at h2
        cases h2

theorem roundtrip_map (N : Nat)
    (IH : ∀ (a2 b2 : Tree), sizeOf b2 < N → wf a2 = true → wf b2 = true →
      ∃ c, applyPatch a2 (diff a2 b2) = .ok c ∧ eqv c b2 = true)
    (akvs bkvs : List (String × Tree))
    (hszb : ∀ p ∈ bkvs, sizeOf p.2 < N)
    (hwa : wf (.map akvs) = true) (hwb : wf (.map bkvs) = true) :
    ∃ c, applyPatch (.map akvs) (diff (.map akvs) (.map bkvs)) = .ok c ∧
      eqv c (.map bkvs) = true := by
  rw [diff_map_eq, applyPatch_append]
  obtain ⟨finA, hfinA, hA1, hA2, hA3, hA4⟩ :=
    mapPhaseA N akvs IH (fun p hp => wf_map_mem hwa hp) bkvs akvs
      (wf_map_nodup hwb) hszb (fun p hp => wf_map_mem hwb hp)
      (wf_map_nodup hwa) (fun p hp => rfl)
  rw [hfinA]
  dsimp only
  have hrmnd : ((akvs.filter (fun p => (lookupField p.1 bkvs).isNone)).map Prod.fst).Nodup :=
    ((List.filter_sublist akvs).map Prod.fst).nodup (wf_map_nodup hwa)
  have hval : ∀ p ∈ akvs.filter (fun p => (lookupField p.1 bkvs).isNone),
      lookupField p.1 finA = some p.2 ∧ wf p.2 = true := by
    intro p hp
    obtain ⟨hpmem, hpnone⟩ := List.mem_filter.mp hp
    have hbnone : lookupField p.1 bkvs = none := by
      cases hh : lookupField p.1 bkvs with
      | none => rfl
      | some w => rw [hh] at hpnone; cases hpnone
    rw [hA2 p.1 hbnone]
    exact ⟨lookupField_of_mem_nodup (wf_map_nodup hwa) (by exact hpmem),
      wf_map_mem hwa hpmem⟩
  obtain ⟨finB, hfinB, hB1, hB2, hB3, hB4⟩ :=
    mapPhaseB (akvs.filter (fun p => (lookupField p.1 bkvs).isNone)) finA
      hrmnd hA3 hval
  rw [hfinB]
  refine ⟨.map finB, rfl, ?_⟩
  have hkeyrm : ∀ k, k ∈ (akvs.filter
      (fun p => (lookupField p.1 bkvs).isNone)).map Prod.fst ↔
      (∃ v, (k, v) ∈ akvs) ∧ lookupField k bkvs = none := by
    intro k
    constructor
    · intro hk
      obtain ⟨p, hp, hpk⟩ := List.mem_map.mp hk
      obtain ⟨hpmem, hpnone⟩ := List.mem_filter.mp hp
      refine ⟨⟨p.2, by rw [← hpk]; simpa using hpmem⟩, ?_⟩
      cases hh : lookupField p.1 bkvs with
      | none => rw [← hpk]; exact hh
      | some w => rw [hh] at hpnone; cases hpnone
    · rintro ⟨⟨v, hv⟩, hnone⟩
      apply List.mem_map.mpr
      refine ⟨(k, v), List.mem_filter.mpr ⟨hv, by rw [hnone]; rfl⟩, rfl⟩
  apply eqv_of_lookup hB3
  · have e1 : (akvs.filter (fun p => (lookupField p.1 bkvs).isNone)).length
        = akvs.countP (fun p => !(lookupField p.1 bkvs).isSome) := by
      rw [← List.countP_eq_length_filter]
      apply List.countP_congr
      intro p hp
      cases lookupField p.1 bkvs <;> simp
    have e2 : (bkvs.filter (fun p => (lookupField p.1 akvs).isNone)).length
        = bkvs.countP (fun p => !(lookupField p.1 akvs).isSome) := by
      rw [← List.countP_eq_length_filter]
      apply List.countP_congr
      intro p hp
      cases lookupField p.1 akvs <;> simp
    have e3 := countP_add_countP_not akvs (fun p => (lookupField p.1 bkvs).isSome)
    have e4 := countP_add_countP_not bkvs (fun p => (lookupField p.1 akvs).isSome)
    have e5 := common_count akvs bkvs (wf_map_nodup hwa) (wf_map_nodup hwb)
    rw [hA4] at hB4
    rw [e1] at hB4
    rw [← List.countP_eq_length_filter] at hB4
    have e6 : bkvs.countP (fun p => (lookupField p.1 akvs).isNone)
        = bkvs.countP (fun p => !(lookupField p.1 akvs).isSome) := by
      apply List.countP_congr
      intro p hp
      cases lookupField p.1 akvs <;> simp
    rw [e6] at hB4
    omega
  · intro k v hkv
    cases hkb : lookupField k bkvs with
    | some w =>
        obtain ⟨c, hcfin, he⟩ := hA1 k w hkb
        have hknotrm : k ∉ (akvs.filter
            (fun p => (lookupField p.1 bkvs).isNone)).map Prod.fst := by
          rw [hkeyrm k]
          rintro ⟨_, hnone⟩
          rw [hnone] at hkb
          cases hkb
        rw [hB2 k hknotrm, hcfin] at hkv
        injection hkv with hkv2
        exact ⟨w, rfl, by rw [← hkv2]; exact he⟩
    | none =>
        exfalso
        by_cases hkrm : k ∈ (akvs.filter
            (fun p => (lookupField p.1 bkvs).isNone)).map Prod.fst
        · rw [hB1 k hkrm] at hkv
          cases hkv
        · rw [hB2 k hkrm, hA2 k hkb] at hkv
          have hmem := lookupField_mem hkv
          apply hkrm
          rw [hkeyrm k]
          exact ⟨⟨v, hmem⟩, hkb⟩

/-! ## List-case roundtrip machinery: removals -/

theorem getElem?_getD {l : List Tree} {i : Nat} (h : i < l.length) :
    l[i]? = some (l.getD i .null) := by
  rw [List.getElem?_eq_getElem h, List.getD_eq_getElem l _ h]

theorem getD_eraseIdx_of_lt (xs : List Tree) (i0 i : Nat) (h : i < i0) :
    (xs.eraseIdx i0).getD i .null = xs.getD i .null := by
  rw [List.getD_eq_getElem?_getD, List.getD_eq_getElem?_getD,
    List.getElem?_eraseIdx, if_pos h]

theorem range_filterMap_getElem? (l : List Tree) :
    (List.range l.length).filterMap (fun i => l[i]?) = l := by
  induction l with
  | nil => rfl
  | cons x rest ih =>
      rw [List.length_cons, List.range_succ_eq_map, List.filterMap_cons]
      rw [show ((x :: rest)[0]?) = some x from by simp]
      dsimp only
      rw [List.filterMap_map]
      have hcomp2 : ((fun i => (x :: rest)[i]?) ∘ (· + 1)) = fun i => rest[i]? := by
        funext i
        simp [Function.comp]
      rw [hcomp2, ih]

/-- Iterated index removal, leftmost fold (each step on the current list). -/
def removeIdxs (xs : List Tree) (dd : List Nat) : List Tree :=
  dd.foldl List.eraseIdx xs

theorem removes_ok : ∀ (dd : List Nat) (xs : List Tree),
    List.Pairwise (· > ·) dd → (∀ i ∈ dd, i < xs.length) → (∀ x ∈ xs, wf x = true) →
    applyPatch (.list xs) (dd.map (fun i => Op.remove [] (.idx i) (xs.getD i .null)))
      = .ok (.list (removeIdxs xs dd)) := by
  intro dd
  induction dd with
  | nil =>
      intro xs hp hb hw
      rw [List.map_nil, applyPatch, removeIdxs, List.foldl_nil]
  | cons i0 dd2 ih =>
      intro xs hp hb hw
      rw [List.pairwise_cons] at hp
      have hi0 : i0 < xs.length := hb i0 (List.mem_cons_self _ _)
      have hsome : xs[i0]? = some (xs.getD i0 .null) := getElem?_getD hi0
      have hwfel : wf (xs.getD i0 .null) = true := by
        apply hw
        exact List.getElem?_mem hsome
      have hstep : applyOp (.list xs) (Op.remove [] (.idx i0) (xs.getD i0 .null))
          = .ok (.list (xs.eraseIdx i0)) := by
        rw [applyOp, applyAt]
        dsimp only
        rw [hsome]
        dsimp only
        rw [if_pos (eqv_refl hwfel)]
      rw [List.map_cons, applyPatch, hstep]
      dsimp only
      have hmapeq : dd2.map (fun i => Op.remove [] (.idx i) (xs.getD i .null))
          = dd2.map (fun i => Op.remove [] (.idx i) ((xs.eraseIdx i0).getD i .null)) := by
        apply List.map_congr_left
        intro i hi
        rw [getD_eraseIdx_of_lt xs i0 i (hp.1 i hi)]
      rw [hmapeq]
      have hlen2 : (xs.eraseIdx i0).length = xs.length - 1 := by
        rw [List.length_eraseIdx]
        simp [hi0]
      rw [ih (xs.eraseIdx i0) hp.2
        (fun i hi => by
          rw [hlen2]
          have := hp.1 i hi
          omega)
        (fun x hx => hw x ((List.eraseIdx_sublist xs i0).mem hx))]
      rw [removeIdxs, removeIdxs, List.foldl_cons]

theorem removeIdxs_eq_keep : ∀ (dd : List Nat) (xs : List Tree),
    List.Pairwise (· > ·) dd → (∀ i ∈ dd, i < xs.length) →
    removeIdxs xs dd
      = ((List.range xs.length).filter (fun i => !(dd.contains i))).filterMap
          (fun i => xs[i]?) := by
  intro dd
  induction dd with
  | nil =>
      intro xs hp hb
      rw [removeIdxs, List.foldl_nil]
      have hfil : (List.range xs.length).filter (fun i => !(([] : List Nat).contains i))
          = List.range xs.length :=
        List.filter_eq_self.mpr (fun i hi => by simp)
      rw [hfil, range_filterMap_getElem?]
  | cons i0 dd2 ih =>
      intro xs hp hb
      rw [List.pairwise_cons] at hp
      have hi0 : i0 < xs.length := hb i0 (List.mem_cons_self _ _)
      rw [removeIdxs, List.foldl_cons]
      rw [show List.foldl List.eraseIdx (xs.eraseIdx i0) dd2
        = removeIdxs (xs.eraseIdx i0) dd2 from rfl]
      have hlen2 : (xs.eraseIdx i0).length = xs.length - 1 := by
        rw [List.length_eraseIdx]
        simp [hi0]
      rw [ih (xs.eraseIdx i0) hp.2
        (fun i hi => by
          rw [hlen2]
          have := hp.1 i hi
          omega)]
      have hsplit1 : List.range (xs.eraseIdx i0).length
          = List.range i0 ++ (List.range (xs.length - 1 - i0)).map (i0 + ·) := by
        rw [hlen2]
        have harr : i0 + (xs.length - 1 - i0) = xs.length - 1 := by omega
        nth_rewrite 1 [← harr]
        rw [List.range_add]
      have hsplit2 : List.range xs.length
          = List.range i0 ++ (List.range (xs.length - i0)).map (i0 + ·) := by
        have harr : i0 + (xs.length - i0) = xs.length := by omega
        nth_rewrite 1 [← harr]
        rw [List.range_add]
      rw [hsplit1, hsplit2, List.filter_append, List.filter_append,
        List.filterMap_append, List.filterMap_append]
      have hpart1 : ((List.range i0).filter (fun i => !(dd2.contains i))).filterMap
            (fun i => (xs.eraseIdx i0)[i]?)
          = ((List.range i0).filter (fun i => !((i0 :: dd2).contains i))).filterMap
            (fun i => xs[i]?) := by
        have hfeq : (List.range i0).filter (fun i => !(dd2.contains i))
            = (List.range i0).filter (fun i => !((i0 :: dd2).contains i)) := by
          apply List.filter_congr
          intro i hi
          rw [List.mem_range] at hi
          have hcc : ((i0 :: dd2).contains i) = (dd2.contains i) := by
            rw [List.contains_cons]
            have hne : (i == i0) = false := by
              rw [beq_eq_false_iff_ne]
              omega
            rw [hne]
            simp
          rw [hcc]
        rw [← hfeq]
        apply List.filterMap_congr
        intro i hi
        obtain ⟨hir, _⟩ := List.mem_filter.mp hi
        rw [List.mem_range] at hir
        rw [List.getElem?_eraseIdx, if_pos hir]
      have hpart2 : (((List.range (xs.length - 1 - i0)).map (i0 + ·)).filter
            (fun i => !(dd2.contains i))).filterMap (fun i => (xs.eraseIdx i0)[i]?)
          = (((List.range (xs.length - i0)).map (i0 + ·)).filter
            (fun i => !((i0 :: dd2).contains i))).filterMap (fun i => xs[i]?) := by
        have hall1 : ((List.range (xs.length - 1 - i0)).map (i0 + ·)).filter
              (fun i => !(dd2.contains i))
            = (List.range (xs.length - 1 - i0)).map (i0 + ·) := by
          apply List.filter_eq_self.mpr
          intro i hi
          obtain ⟨t, ht, hti⟩ := List.mem_map.mp hi
          have hcon : dd2.contains i = false := by
            rcases Bool.eq_false_or_eq_true (dd2.contains i) with h | h
            · exfalso
              have hmm2 : i ∈ dd2 := List.mem_of_elem_eq_true h
              have := hp.1 i hmm2
              omega
            · exact h
          have hnm : i ∉ dd2 := by
            intro hmem
            have hel := List.elem_eq_true_of_mem hmem
            rw [show List.elem i dd2 = dd2.contains i from rfl, hcon] at hel
            cases hel
          simp [hnm]
        have hrange : List.range (xs.length - i0)
            = 0 :: (List.range (xs.length - 1 - i0)).map (· + 1) := by
          rw [show xs.length - i0 = (xs.length - 1 - i0) + 1 from by omega,
            List.range_succ_eq_map]
        rw [hall1, hrange, List.map_cons, List.filter_cons]
        have hc0 : ((i0 :: dd2).contains (i0 + 0)) = true := by
          rw [List.contains_cons]
          simp
        rw [show (!((i0 :: dd2).contains (i0 + 0))) = false from by rw [hc0]; rfl]
        rw [if_neg Bool.false_ne_true]
        have hall2 : (((List.range (xs.length - 1 - i0)).map (· + 1)).map (i0 + ·)).filter
              (fun i => !((i0 :: dd2).contains i))
            = ((List.range (xs.length - 1 - i0)).map (· + 1)).map (i0 + ·) := by
          apply List.filter_eq_self.mpr
          intro i hi
          obtain ⟨t, ht, hti⟩ := List.mem_map.mp hi
          obtain ⟨t2, ht2, ht2i⟩ := List.mem_map.mp ht
          rw [List.contains_cons]
          have h1 : (i == i0) = false := by
            rw [beq_eq_false_iff_ne]
            omega
          have h2 : dd2.contains i = false := by
            rcases Bool.eq_false_or_eq_true (dd2.contains i) with h | h
            · exfalso
              have hmm2 : i ∈ dd2 := List.mem_of_elem_eq_true h
              have := hp.1 i hmm2
              omega
            · exact h
          rw [h1, h2]
          rfl
        rw [hall2, List.map_map, List.filterMap_map, List.filterMap_map]
        apply List.filterMap_congr
        intro t ht
        simp only [Function.comp]
        rw [List.getElem?_eraseIdx, if_neg (by omega)]
        have harith : i0 + t + 1 = i0 + (t + 1) := by omega
        rw [harith]
      rw [hpart1, hpart2]

/-! ## List-case roundtrip machinery: moves -/

theorem insertIdx_eq_take_cons_drop {α : Type} (v : α) :
    ∀ (j : Nat) (l : List α), j ≤ l.length →
      l.insertIdx j v = l.take j ++ v :: l.drop j := by
  intro j
  induction j with
  | zero => intro l h; rw [List.insertIdx_zero, List.take_zero, List.drop_zero, List.nil_append]
  | succ j2 ih =>
      intro l h
      cases l with
      | nil => simp at h
      | cons x rest =>
          rw [List.insertIdx_succ_cons, List.take_succ_cons, List.drop_succ_cons,
            ih rest (by simpa using h), List.cons_append]

theorem cons_eraseIdx_perm {α : Type} {l : List α} {m : Nat} {t : α}
    (h : l[m]? = some t) : (t :: l.eraseIdx m).Perm l := by
  have hm : m < l.length := by
    by_contra hcon
    rw [List.getElem?_eq_none (Nat.le_of_not_lt hcon)] at h
    cases h
  rw [List.eraseIdx_eq_take_drop_succ]
  have hl : l = l.take m ++ t :: l.drop (m + 1) := by
    conv_lhs => rw [← List.take_append_drop m l]
    rw [List.drop_eq_getElem_cons hm]
    rw [List.getElem?_eq_getElem hm] at h
    injection h with h2
    rw [h2]
  conv_rhs => rw [hl]
  exact List.perm_middle.symm

theorem eraseIdx_take_of_le {α : Type} {l : List α} {i j : Nat} (h : j ≤ i) :
    (l.eraseIdx i).take j = l.take j := by
  apply List.ext_getElem?
  intro k
  by_cases hk : k < j
  · rw [List.getElem?_take_of_lt hk, List.getElem?_take_of_lt hk,
      List.getElem?_eraseIdx, if_pos (by omega)]
  · rw [List.getElem?_take_eq_none (by omega), List.getElem?_take_eq_none (by omega)]

theorem drop_eraseIdx_comm {α : Type} (l : List α) (i j : Nat) (h : j ≤ i) :
    (l.eraseIdx i).drop j = (l.drop j).eraseIdx (i - j) := by
  apply List.ext_getElem?
  intro k
  rw [List.getElem?_drop, List.getElem?_eraseIdx, List.getElem?_eraseIdx]
  by_cases hk : k < i - j
  · rw [if_pos hk, if_pos (by omega), List.getElem?_drop]
  · rw [if_neg hk, if_neg (by omega), List.getElem?_drop]
    have : j + (k + 1) = j + k + 1 := by omega
    rw [this]

theorem map_eraseIdx_comm {α β : Type} (f : α → β) :
    ∀ (l : List α) (i : Nat), (l.map f).eraseIdx i = (l.eraseIdx i).map f := by
  intro l
  induction l with
  | nil => intro i; rfl
  | cons x rest ih =>
      intro i
      cases i with
      | zero => rfl
      | succ i2 =>
          rw [List.map_cons, List.eraseIdx_cons_succ, List.eraseIdx_cons_succ,
            List.map_cons, ih i2]

theorem map_insertIdx_comm {α β : Type} (f : α → β) :
    ∀ (j : Nat) (l : List α) (v : α),
      (l.insertIdx j v).map f = (l.map f).insertIdx j (f v) := by
  intro j
  induction j with
  | zero => intro l v; rw [List.insertIdx_zero, List.insertIdx_zero, List.map_cons]
  | succ j2 ih =>
      intro l v
      cases l with
      | nil => rfl
      | cons x rest =>
          rw [List.insertIdx_succ_cons, List.map_cons, List.map_cons,
            List.insertIdx_succ_cons, ih rest v]

theorem take_succ_insertIdx {α : Type} {l : List α} {j : Nat} (v : α)
    (h : j ≤ l.length) : (l.insertIdx j v).take (j + 1) = l.take j ++ [v] := by
  rw [insertIdx_eq_take_cons_drop v j l h]
  have hlen : (l.take j).length = j := by
    rw [List.length_take]
    omega
  rw [show j + 1 = (l.take j).length + 1 from by omega]
  rw [List.take_append]
  simp

theorem movesAux_ok : ∀ (ts : List Nat) (sim : List Nat) (j : Nat) (f : Nat → Tree),
    sim.Nodup →
    sim.length = j + ts.length →
    (sim.drop j).Perm ts →
    applyPatch (.list (sim.map f)) (movesAux sim ts j)
      = .ok (.list ((sim.take j ++ ts).map f)) := by
  intro ts
  induction ts with
  | nil =>
      intro sim j f hnd hlen hperm
      simp only [List.length_nil] at hlen
      rw [movesAux, applyPatch, List.take_of_length_le (by omega), List.append_nil]
  | cons t ts2 ih =>
      intro sim j f hnd hlen hperm
      simp only [List.length_cons] at hlen
      have htmem : t ∈ sim.drop j := hperm.mem_iff.mpr (List.mem_cons_self _ _)
      have htsim : t ∈ sim := List.mem_of_mem_drop htmem
      have hilt : sim.indexOf t < sim.length := List.indexOf_lt_length.mpr htsim
      have hgeti : sim[sim.indexOf t]? = some t := by
        rw [List.getElem?_eq_getElem hilt, List.getElem_indexOf hilt]
      have hige : j ≤ sim.indexOf t := by
        by_contra hcon
        push_neg at hcon
        have htake : t ∈ sim.take j := by
          apply List.mem_iff_getElem?.mpr
          exact ⟨sim.indexOf t, by rw [List.getElem?_take_of_lt hcon]; exact hgeti⟩
        have hnd2 := hnd
        rw [← List.take_append_drop j sim, List.nodup_append] at hnd2
        exact hnd2.2.2 htake htmem
      rw [movesAux]
      by_cases hij : sim.indexOf t = j
      · rw [if_pos hij]
        have hjlt : j < sim.length := by omega
        have hperm2 : (sim.drop (j + 1)).Perm ts2 := by
          have hdj : sim.drop j = t :: sim.drop (j + 1) := by
            rw [List.drop_eq_getElem_cons hjlt]
            rw [hij] at hgeti
            rw [List.getElem?_eq_getElem hjlt] at hgeti
            injection hgeti with hg2
            rw [hg2]
          rw [hdj] at hperm
          exact (List.perm_cons t).mp hperm
        rw [ih sim (j + 1) f hnd (by omega) hperm2]
        have htke : sim.take (j + 1) = sim.take j ++ [t] := by
          rw [List.take_succ]
          rw [hij] at hgeti
          rw [hgeti]
          rfl
        rw [htke, List.append_assoc]
        rfl
      · rw [if_neg hij]
        have higt : j < sim.indexOf t := by omega
        have herlen : (sim.eraseIdx (sim.indexOf t)).length = sim.length - 1 := by
          rw [List.length_eraseIdx]
          simp [hilt]
        have hmv : applyOp (.list (sim.map f)) (Op.move [] (sim.indexOf t) j)
            = .ok (.list (((sim.map f).eraseIdx (sim.indexOf t)).insertIdx j (f t))) := by
          rw [applyOp, applyAt]
          dsimp only
          rw [show (sim.map f)[sim.indexOf t]? = some (f t) from by
            rw [List.getElem?_map, hgeti]; rfl]
          dsimp only
          rw [if_pos (by
            rw [map_eraseIdx_comm, List.length_map, herlen]
            omega)]
        rw [applyPatch, hmv]
        dsimp only
        have hmapcomm : ((sim.map f).eraseIdx (sim.indexOf t)).insertIdx j (f t)
            = ((sim.eraseIdx (sim.indexOf t)).insertIdx j t).map f := by
          rw [map_eraseIdx_comm, map_insertIdx_comm]
        rw [hmapcomm]
        have hsimperm : ((sim.eraseIdx (sim.indexOf t)).insertIdx j t).Perm sim := by
          have h1 : ((sim.eraseIdx (sim.indexOf t)).insertIdx j t).Perm
              (t :: sim.eraseIdx (sim.indexOf t)) :=
            List.perm_insertNth t _ (by omega)
          exact h1.trans (cons_eraseIdx_perm hgeti)
        have hnd2 : ((sim.eraseIdx (sim.indexOf t)).insertIdx j t).Nodup :=
          hsimperm.nodup_iff.mpr hnd
        have hlen2 : ((sim.eraseIdx (sim.indexOf t)).insertIdx j t).length
            = (j + 1) + ts2.length := by
          rw [List.length_insertIdx _ _ (by omega), herlen]
          omega
        have hdropins : ((sim.eraseIdx (sim.indexOf t)).insertIdx j t).drop (j + 1)
            = (sim.eraseIdx (sim.indexOf t)).drop j := by
          rw [insertIdx_eq_take_cons_drop t j _ (by omega)]
          have hlentake : ((sim.eraseIdx (sim.indexOf t)).take j).length = j := by
            rw [List.length_take]
            omega
          rw [show j + 1 = ((sim.eraseIdx (sim.indexOf t)).take j).length + 1 from
            by omega]
          rw [List.drop_append]
          rfl
        have hperm2 : (((sim.eraseIdx (sim.indexOf t)).insertIdx j t).drop (j + 1)).Perm
            ts2 := by
          rw [hdropins, drop_eraseIdx_comm sim _ j hige]
          have hget2 : (sim.drop j)[sim.indexOf t - j]? = some t := by
            rw [List.getElem?_drop]
            rw [show j + (sim.indexOf t - j) = sim.indexOf t from by omega]
            exact hgeti
          have hconsperm := cons_eraseIdx_perm hget2
          have := (hconsperm.trans hperm)
          exact (List.perm_cons t).mp this
        rw [ih _ (j + 1) f hnd2 hlen2 hperm2]
        have htke2 : ((sim.eraseIdx (sim.indexOf t)).insertIdx j t).take (j + 1)
            = sim.take j ++ [t] := by
          rw [take_succ_insertIdx t (by omega), eraseIdx_take_of_le hige]
        rw [htke2, List.append_assoc]
        rfl

theorem insertIdx_length_append {α : Type} (A suffix : List α) (v : α) :
    (A ++ suffix).insertIdx A.length v = A ++ v :: suffix := by
  rw [insertIdx_eq_take_cons_drop v A.length (A ++ suffix) (by simp),
    List.take_left, List.drop_left]

theorem adds_ok : ∀ (m : Nat) (t : Nat → Tree) (addP : Nat → Bool) (suffix : List Tree),
    applyPatch (.list ((((List.range m).filter (fun j => !addP j)).map t) ++ suffix))
      (((List.range m).filter addP).map (fun j => Op.add [] (.idx j) (t j)))
      = .ok (.list ((List.range m).map t ++ suffix)) := by
  intro m
  induction m with
  | zero =>
      intro t addP suffix
      simp [applyPatch]
  | succ m2 ih =>
      intro t addP suffix
      have hr : List.range (m2 + 1) = List.range m2 ++ [m2] := by
        exact List.range_succ m2
      by_cases hadd : addP m2 = true
      · have hops : ((List.range (m2 + 1)).filter addP).map
              (fun j => Op.add [] (.idx j) (t j))
            = ((List.range m2).filter addP).map (fun j => Op.add [] (.idx j) (t j))
              ++ [Op.add [] (.idx m2) (t m2)] := by
          rw [hr, List.filter_append, List.map_append]
          congr 1
          simp [hadd]
        have hstate : ((List.range (m2 + 1)).filter (fun j => !addP j)).map t
            = ((List.range m2).filter (fun j => !addP j)).map t := by
          rw [hr, List.filter_append]
          simp [hadd]
        rw [hops, hstate, applyPatch_append, ih t addP suffix]
        dsimp only
        rw [applyPatch, applyOp, applyAt]
        dsimp only
        rw [if_pos (by simp)]
        dsimp only
        have hins : ((List.range m2).map t ++ suffix).insertIdx m2 (t m2)
            = (List.range m2).map t ++ t m2 :: suffix := by
          have h0 := insertIdx_length_append ((List.range m2).map t) suffix (t m2)
          rw [List.length_map, List.length_range] at h0
          exact h0
        rw [hins, applyPatch, hr, List.map_append, List.append_assoc]
        rfl
      · have hops : ((List.range (m2 + 1)).filter addP).map
              (fun j => Op.add [] (.idx j) (t j))
            = ((List.range m2).filter addP).map
                (fun j => Op.add [] (.idx j) (t j)) := by
          rw [hr, List.filter_append]
          simp [hadd]
        have hstate : ((List.range (m2 + 1)).filter (fun j => !addP j)).map t ++ suffix
            = ((List.range m2).filter (fun j => !addP j)).map t
              ++ (t m2 :: suffix) := by
          rw [hr, List.filter_append, List.map_append]
          have h1 : List.filter (fun j => !addP j) [m2] = [m2] := by simp [hadd]
          rw [h1, List.append_assoc]
          rfl
        rw [hops, hstate, ih t addP (t m2 :: suffix), hr, List.map_append,
          List.append_assoc]
        rfl

theorem subs_ok : ∀ (ps : List (Tree × Tree × Nat)) (cur : List Tree),
    (ps.map (fun q => q.2.2)).Nodup →
    (∀ q ∈ ps, cur[q.2.2]? = some q.1) →
    (∀ q ∈ ps, ∃ c, applyPatch q.1 (diff q.1 q.2.1) = .ok c ∧ eqv c q.2.1 = true) →
    ∃ fin, applyPatch (.list cur)
        (ps.flatMap (fun q => (diff q.1 q.2.1).map (prefixOp (.idx q.2.2))))
          = .ok (.list fin) ∧
      fin.length = cur.length ∧
      (∀ q ∈ ps, ∃ c, fin[q.2.2]? = some c ∧ eqv c q.2.1 = true) ∧
      (∀ j, j ∉ ps.map (fun q => q.2.2) → fin[j]? = cur[j]?) := by
  intro ps
  induction ps with
  | nil =>
      intro cur hnd hget hrt
      refine ⟨cur, by rw [List.flatMap_nil, applyPatch], rfl, ?_, ?_⟩
      · intro q hq
        cases hq
      · intro j hj
        rfl
  | cons q ps2 ih =>
      intro cur hnd hget hrt
      rw [List.flatMap_cons, applyPatch_append]
      have hq1 : cur[q.2.2]? = some q.1 := hget q (List.mem_cons_self _ _)
      obtain ⟨c, hc, hce⟩ := hrt q (List.mem_cons_self _ _)
      rw [applyPatch_prefix_idx q.2.2 (diff q.1 q.2.1) cur q.1 hq1, hc]
      dsimp only
      rw [List.map_cons, List.nodup_cons] at hnd
      have hjlen : q.2.2 < cur.length := by
        by_contra hcon
        rw [List.getElem?_eq_none (Nat.le_of_not_lt hcon)] at hq1
        cases hq1
      obtain ⟨fin, hfin, hflen, hfproc, hfother⟩ := ih (cur.set q.2.2 c)
        hnd.2
        (fun q2 hq2 => by
          have hne : q.2.2 ≠ q2.2.2 := by
            intro heq
            apply hnd.1
            rw [heq]
            exact List.mem_map_of_mem _ hq2
          rw [List.getElem?_set_ne hne]
          exact hget q2 (List.mem_cons_of_mem _ hq2))
        (fun q2 hq2 => hrt q2 (List.mem_cons_of_mem _ hq2))
      refine ⟨fin, hfin, by rw [hflen, List.length_set], ?_, ?_⟩
      · intro q2 hq2
        rcases List.mem_cons.mp hq2 with heq | hmem
        · rw [heq]
          refine ⟨c, ?_, hce⟩
          rw [hfother q.2.2 hnd.1, List.getElem?_set_eq hjlen]
        · exact hfproc q2 hmem
      · intro j hj
        rw [List.map_cons] at hj
        have hj1 : j ≠ q.2.2 := fun he => hj (he ▸ List.mem_cons_self _ _)
        have hj2 : j ∉ ps2.map (fun q => q.2.2) :=
          fun hm => hj (List.mem_cons_of_mem _ hm)
        rw [hfother j hj2, List.getElem?_set_ne (Ne.symm hj1)]

theorem contains_eq_true_iff {l : List Nat} {i : Nat} : l.contains i = true ↔ i ∈ l := by
  constructor
  · exact List.mem_of_elem_eq_true
  · exact List.elem_eq_true_of_mem

theorem listRemoves_eq (xs : List Tree) (mo : List Nat) :
    listRemoves xs mo
      = (((List.range xs.length).filter (fun i => !(mo.contains i))).reverse).map
          (fun i => Op.remove [] (.idx i) (xs.getD i Tree.null)) := by
  rw [listRemoves, enum_eq_range_map, List.map_filter]
  rw [show ((fun (p : Nat × Tree) => !(mo.contains p.1))
        ∘ (fun j => (j, xs.getD j Tree.null))) = (fun i => !(mo.contains i)) from rfl]
  rw [List.map_reverse, List.map_reverse, List.map_map]
  rfl

theorem filterMap_getElem?_eq_map_getD (xs : List Tree) :
    ∀ (l : List Nat), (∀ i ∈ l, i < xs.length) →
      l.filterMap (fun i => xs[i]?) = l.map (fun i => xs.getD i Tree.null) := by
  intro l
  induction l with
  | nil => intro h; rfl
  | cons i rest ih =>
      intro h
      rw [List.filterMap_cons, getElem?_getD (h i (List.mem_cons_self _ _))]
      dsimp only
      rw [List.map_cons, ih (fun i2 hi2 => h i2 (List.mem_cons_of_mem _ hi2))]

theorem removes_phase (xs : List Tree) (mo : List Nat)
    (hwx : ∀ x ∈ xs, wf x = true) :
    applyPatch (.list xs) (listRemoves xs mo)
      = .ok (.list (((List.range xs.length).filter (fun i => mo.contains i)).map
          (fun i => xs.getD i Tree.null))) := by
  have hdd_pair : (((List.range xs.length).filter
      (fun i => !(mo.contains i))).reverse).Pairwise (· > ·) := by
    rw [List.pairwise_reverse]
    exact List.Pairwise.filter _ (List.pairwise_lt_range xs.length)
  have hdd_lt : ∀ i ∈ ((List.range xs.length).filter
      (fun i => !(mo.contains i))).reverse, i < xs.length := by
    intro i hi
    rw [List.mem_reverse] at hi
    have := (List.mem_filter.mp hi).1
    simpa using this
  rw [listRemoves_eq, removes_ok _ xs hdd_pair hdd_lt hwx,
    removeIdxs_eq_keep _ xs hdd_pair hdd_lt]
  have hfc : (List.range xs.length).filter
        (fun i => !((((List.range xs.length).filter
          (fun i => !(mo.contains i))).reverse).contains i))
      = (List.range xs.length).filter (fun i => mo.contains i) := by
    apply List.filter_congr
    intro i hi
    rw [List.mem_range] at hi
    by_cases hmem : i ∈ mo
    · have h1 : mo.contains i = true := contains_eq_true_iff.mpr hmem
      have h2 : (((List.range xs.length).filter
          (fun i => !(mo.contains i))).reverse).contains i = false := by
        rw [Bool.eq_false_iff]
        intro hcon
        have hmem2 := contains_eq_true_iff.mp hcon
        rw [List.mem_reverse, List.mem_filter] at hmem2
        rw [h1] at hmem2
        simp at hmem2
      rw [h1, h2]
      rfl
    · have h1 : mo.contains i = false := by
        rw [Bool.eq_false_iff]
        intro hcon
        exact hmem (contains_eq_true_iff.mp hcon)
      have h2 : (((List.range xs.length).filter
          (fun i => !(mo.contains i))).reverse).contains i = true := by
        apply contains_eq_true_iff.mpr
        rw [List.mem_reverse, List.mem_filter]
        refine ⟨List.mem_range.mpr hi, ?_⟩
        rw [h1]
        rfl
      rw [h1, h2]
      rfl
  rw [hfc, filterMap_getElem?_eq_map_getD xs _ (fun i hi => by
    have := (List.mem_filter.mp hi).1
    simpa using this)]

theorem filter_range_perm_of_nodup {n : Nat} {mo : List Nat} (hnd : mo.Nodup)
    (hlt : ∀ i ∈ mo, i < n) :
    ((List.range n).filter (fun i => mo.contains i)).Perm mo := by
  apply (List.perm_ext_iff_of_nodup ((List.nodup_range n).filter _) hnd).mpr
  intro i
  rw [List.mem_filter, List.mem_range]
  constructor
  · rintro ⟨h1, hc⟩
    exact contains_eq_true_iff.mp hc
  · intro hm
    exact ⟨hlt i hm, contains_eq_true_iff.mpr hm⟩

theorem subPairs_eq (xs ys : List Tree) :
    ∀ (M : List (Nat × Nat)), (∀ p ∈ M, p.1 < xs.length) →
      (∀ p ∈ M, p.2 < ys.length) →
      subPairs xs ys M
        = M.map (fun p => (xs.getD p.1 Tree.null, ys.getD p.2 Tree.null, p.2)) := by
  intro M
  induction M with
  | nil => intro h1 h2; rfl
  | cons p rest ih =>
      intro h1 h2
      have ih2 := ih (fun q hq => h1 q (List.mem_cons_of_mem _ hq))
        (fun q hq => h2 q (List.mem_cons_of_mem _ hq))
      rw [subPairs] at ih2 ⊢
      have hx1 : xs[p.1]? = some (xs.getD p.1 Tree.null) :=
        getElem?_getD (h1 p (List.mem_cons_self _ _))
      have hy1 : ys[p.2]? = some (ys.getD p.2 Tree.null) :=
        getElem?_getD (h2 p (List.mem_cons_self _ _))
      rw [List.filterMap_cons]
      rw [hx1, hy1]
      dsimp only
      rw [List.map_cons, ih2]

theorem listAdds_eq (ys : List Tree) (M : List (Nat × Nat)) :
    listAdds ys M
      = ((List.range ys.length).filter (fun j => !(M.any (fun q => q.2 == j)))).map
          (fun j => Op.add [] (.idx j) (ys.getD j Tree.null)) := by
  rw [listAdds, enum_eq_range_map, List.map_filter]
  rw [show ((fun (p : Nat × Tree) => !(M.any (fun q => q.2 == p.1)))
        ∘ (fun j => (j, ys.getD j Tree.null)))
      = (fun j => !(M.any (fun q => q.2 == j))) from rfl]
  rw [List.map_map]
  rfl

theorem matched_any_eq_isSome {hx hy : List String} {j : Nat} (hj : j < hy.length) :
    (matchedPairs hx hy).any (fun q => q.2 == j) = (partnerIdx hx hy j).isSome := by
  cases hp : partnerIdx hx hy j with
  | some i =>
      have hmem : (i, j) ∈ matchedPairs hx hy := mem_matchedPairs.mpr ⟨hj, hp⟩
      have hany : (matchedPairs hx hy).any (fun q => q.2 == j) = true := by
        rw [List.any_eq_true]
        exact ⟨(i, j), hmem, by simp⟩
      rw [hany]
      rfl
  | none =>
      have hany : (matchedPairs hx hy).any (fun q => q.2 == j) = false := by
        rw [List.any_eq_false]
        rintro ⟨i2, j2⟩ hq hqq
        rw [beq_iff_eq] at hqq
        have hj2 : j2 = j := hqq
        rw [hj2] at hq
        rw [mem_matchedPairs] at hq
        rw [hq.2] at hp
        cases hp
      rw [hany]
      rfl

theorem option_map_some {α β : Type} (f : α → β) (a : α) :
    Option.map f (some a) = some (f a) := rfl

theorem roundtrip_list (N : Nat)
    (IH : ∀ (a2 b2 : Tree), sizeOf b2 < N → wf a2 = true → wf b2 = true →
      ∃ c, applyPatch a2 (diff a2 b2) = .ok c ∧ eqv c b2 = true)
    (xs ys : List Tree)
    (hszb : ∀ y ∈ ys, sizeOf y < N)
    (hwa : wf (.list xs) = true) (hwb : wf (.list ys) = true) :
    ∃ c, applyPatch (.list xs) (diff (.list xs) (.list ys)) = .ok c ∧
      eqv c (.list ys) = true := by
  have hM_fst_lt : ∀ p ∈ matchedPairs (xs.map objectHash) (ys.map objectHash),
      p.1 < xs.length := by
    intro p hp
    obtain ⟨i, j⟩ := p
    have h2 := (mem_matchedPairs.mp hp).2
    have h3 := (partnerIdx_some h2).1
    simpa using h3
  have hM_snd_lt : ∀ p ∈ matchedPairs (xs.map objectHash) (ys.map objectHash),
      p.2 < ys.length := by
    intro p hp
    obtain ⟨i, j⟩ := p
    have h1 := (mem_matchedPairs.mp hp).1
    simpa using h1
  have hmo_nodup : ((matchedPairs (xs.map objectHash) (ys.map objectHash)).map
      Prod.fst).Nodup := matchedPairs_fst_nodup _ _
  have hmo_lt : ∀ i ∈ (matchedPairs (xs.map objectHash) (ys.map objectHash)).map
      Prod.fst, i < xs.length := by
    intro i hi
    obtain ⟨p, hp, hpi⟩ := List.mem_map.mp hi
    rw [← hpi]
    exact hM_fst_lt p hp
  have hsim_perm : (((List.range xs.length).filter (fun i =>
        ((matchedPairs (xs.map objectHash) (ys.map objectHash)).map
          Prod.fst).contains i))).Perm
      ((matchedPairs (xs.map objectHash) (ys.map objectHash)).map Prod.fst) :=
    filter_range_perm_of_nodup hmo_nodup hmo_lt
  have hsim_nodup : (((List.range xs.length).filter (fun i =>
      ((matchedPairs (xs.map objectHash) (ys.map objectHash)).map
        Prod.fst).contains i))).Nodup :=
    (List.nodup_range xs.length).filter _
  have hmv : applyPatch
      (.list ((((List.range xs.length).filter (fun i =>
        ((matchedPairs (xs.map objectHash) (ys.map objectHash)).map
          Prod.fst).contains i))).map (fun i => xs.getD i Tree.null)))
      (listMoves xs ((matchedPairs (xs.map objectHash) (ys.map objectHash)).map
        Prod.fst))
      = .ok (.list (((matchedPairs (xs.map objectHash) (ys.map objectHash)).map
          Prod.fst).map (fun i => xs.getD i Tree.null))) := by
    rw [listMoves]
    have h0 := movesAux_ok
      ((matchedPairs (xs.map objectHash) (ys.map objectHash)).map Prod.fst)
      (((List.range xs.length).filter (fun i =>
        ((matchedPairs (xs.map objectHash) (ys.map objectHash)).map
          Prod.fst).contains i)))
      0 (fun i => xs.getD i Tree.null) hsim_nodup
      (by rw [hsim_perm.length_eq]; omega)
      (by rw [List.drop_zero]; exact hsim_perm)
    rw [List.take_zero, List.nil_append] at h0
    exact h0
  have hstateA : (((matchedPairs (xs.map objectHash) (ys.map objectHash)).map
        Prod.fst).map (fun i => xs.getD i Tree.null))
      = ((List.range ys.length).filter
          (fun j => !(!(partnerIdx (xs.map objectHash) (ys.map objectHash) j).isSome))).map
          (fun j => match partnerIdx (xs.map objectHash) (ys.map objectHash) j with
            | some i => xs.getD i Tree.null
            | none => ys.getD j Tree.null) := by
    have hflt : (List.range ys.length).filter
          (fun j => !(!(partnerIdx (xs.map objectHash) (ys.map objectHash) j).isSome))
        = (matchedPairs (xs.map objectHash) (ys.map objectHash)).map Prod.snd := by
      rw [matchedPairs_snd_eq_filter, List.length_map]
      apply List.filter_congr
      intro j hj
      rw [Bool.not_not]
    rw [hflt, List.map_map, List.map_map]
    apply List.map_congr_left
    intro p hp
    obtain ⟨i, j⟩ := p
    have hpj : partnerIdx (xs.map objectHash) (ys.map objectHash) j = some i :=
      (mem_matchedPairs.mp hp).2
    dsimp only [Function.comp]
    rw [hpj]
  have haddsops : listAdds ys (matchedPairs (xs.map objectHash) (ys.map objectHash))
      = ((List.range ys.length).filter
          (fun j => !(partnerIdx (xs.map objectHash) (ys.map objectHash) j).isSome)).map
          (fun j => Op.add [] (.idx j)
            (match partnerIdx (xs.map objectHash) (ys.map objectHash) j with
              | some i => xs.getD i Tree.null
              | none => ys.getD j Tree.null)) := by
    rw [listAdds_eq]
    have hfeq : (List.range ys.length).filter
          (fun j => !((matchedPairs (xs.map objectHash) (ys.map objectHash)).any
            (fun q => q.2 == j)))
        = (List.range ys.length).filter
          (fun j => !(partnerIdx (xs.map objectHash) (ys.map objectHash) j).isSome) := by
      apply List.filter_congr
      intro j hj
      rw [List.mem_range] at hj
      rw [matched_any_eq_isSome (by simpa using hj)]
    rw [hfeq]
    apply List.map_congr_left
    intro j hj
    obtain ⟨hjr, hjp⟩ := List.mem_filter.mp hj
    cases hp : partnerIdx (xs.map objectHash) (ys.map objectHash) j with
    | some i =>
        rw [hp] at hjp
        simp at hjp
    | none =>
        simp only [hp]
  have hadds := adds_ok ys.length
    (fun j => match partnerIdx (xs.map objectHash) (ys.map objectHash) j with
      | some i => xs.getD i Tree.null
      | none => ys.getD j Tree.null)
    (fun j => !(partnerIdx (xs.map objectHash) (ys.map objectHash) j).isSome) []
  rw [List.append_nil, List.append_nil] at hadds
  have hsubs_ps : subPairs xs ys (matchedPairs (xs.map objectHash) (ys.map objectHash))
      = (matchedPairs (xs.map objectHash) (ys.map objectHash)).map
          (fun p => (xs.getD p.1 Tree.null, ys.getD p.2 Tree.null, p.2)) :=
    subPairs_eq xs ys _ hM_fst_lt hM_snd_lt
  have hps_nodup : (((matchedPairs (xs.map objectHash) (ys.map objectHash)).map
        (fun p => (xs.getD p.1 Tree.null, ys.getD p.2 Tree.null, p.2))).map
        (fun q => q.2.2)).Nodup := by
    rw [List.map_map]
    exact matchedPairs_snd_nodup _ _
  have hcur : ∀ q ∈ (matchedPairs (xs.map objectHash) (ys.map objectHash)).map
        (fun p => (xs.getD p.1 Tree.null, ys.getD p.2 Tree.null, p.2)),
      (((List.range ys.length).map
        (fun j => match partnerIdx (xs.map objectHash) (ys.map objectHash) j with
          | some i => xs.getD i Tree.null
          | none => ys.getD j Tree.null)))[q.2.2]? = some q.1 := by
    intro q hq
    obtain ⟨p, hp, hpq⟩ := List.mem_map.mp hq
    obtain ⟨i, j⟩ := p
    rw [← hpq]
    dsimp only
    have hj : j < ys.length := by simpa using (mem_matchedPairs.mp hp).1
    rw [List.getElem?_map, List.getElem?_range hj, option_map_some]
    rw [(mem_matchedPairs.mp hp).2]
  have hrt : ∀ q ∈ (matchedPairs (xs.map objectHash) (ys.map objectHash)).map
        (fun p => (xs.getD p.1 Tree.null, ys.getD p.2 Tree.null, p.2)),
      ∃ c, applyPatch q.1 (diff q.1 q.2.1) = .ok c ∧ eqv c q.2.1 = true := by
    intro q hq
    obtain ⟨p, hp, hpq⟩ := List.mem_map.mp hq
    obtain ⟨i, j⟩ := p
    rw [← hpq]
    dsimp only
    have hi : i < xs.length := hM_fst_lt (i, j) hp
    have hj : j < ys.length := hM_snd_lt (i, j) hp
    have hxi : xs[i]? = some (xs.getD i Tree.null) := getElem?_getD hi
    have hyj : ys[j]? = some (ys.getD j Tree.null) := getElem?_getD hj
    exact IH (xs.getD i Tree.null) (ys.getD j Tree.null)
      (hszb _ (List.getElem?_mem hyj))
      (wf_list_mem hwa (List.getElem?_mem hxi))
      (wf_list_mem hwb (List.getElem?_mem hyj))
  obtain ⟨fin, hfin, hflen, hfproc, hfother⟩ := subs_ok
    ((matchedPairs (xs.map objectHash) (ys.map objectHash)).map
      (fun p => (xs.getD p.1 Tree.null, ys.getD p.2 Tree.null, p.2)))
    ((List.range ys.length).map
      (fun j => match partnerIdx (xs.map objectHash) (ys.map objectHash) j with
        | some i => xs.getD i Tree.null
        | none => ys.getD j Tree.null))
    hps_nodup hcur hrt
  refine ⟨.list fin, ?_, ?_⟩
  · rw [diff_list_eq, applyPatch_append, applyPatch_append, applyPatch_append,
      removes_phase xs _ (fun x hx => wf_list_mem hwa hx)]
    dsimp only
    rw [hmv]
    dsimp only
    rw [haddsops, hstateA, hadds]
    dsimp only
    rw [hsubs_ps]
    exact hfin
  · rw [eqv_list, Bool.and_eq_true]
    constructor
    · have hfl : fin.length = ys.length := by
        rw [hflen]
        simp
      simp [hfl]
    · rw [List.all_eq_true]
      intro pz hpz
      obtain ⟨k, hk⟩ := List.mem_iff_getElem?.mp hpz
      obtain ⟨hk1, hk2⟩ := List.getElem?_zip_eq_some.mp hk
      have hklen : k < ys.length := by
        by_contra hcon
        rw [List.getElem?_eq_none (Nat.le_of_not_lt hcon)] at hk2
        cases hk2
      have hy2 : pz.2 = ys.getD k Tree.null := by
        have h3 : ys[k]? = some (ys.getD k Tree.null) := getElem?_getD hklen
        exact Option.some.inj (hk2.symm.trans h3)
      show eqv pz.1 pz.2 = true
      by_cases hmem : k ∈ (matchedPairs (xs.map objectHash) (ys.map objectHash)).map
          Prod.snd
      · obtain ⟨p, hp, hpk⟩ := List.mem_map.mp hmem
        obtain ⟨i, j⟩ := p
        have hjk : j = k := hpk
        rw [hjk] at hp
        have hq : (xs.getD i Tree.null, ys.getD k Tree.null, k)
            ∈ (matchedPairs (xs.map objectHash) (ys.map objectHash)).map
              (fun p => (xs.getD p.1 Tree.null, ys.getD p.2 Tree.null, p.2)) :=
          List.mem_map_of_mem _ hp
        obtain ⟨c2, hc2, hc2e⟩ := hfproc _ hq
        dsimp only at hc2 hc2e
        have hc2p : c2 = pz.1 := Option.some.inj (hc2.symm.trans hk1)
        rw [hy2, ← hc2p]
        exact hc2e
      · have hknotps : k ∉ ((matchedPairs (xs.map objectHash) (ys.map objectHash)).map
            (fun p => (xs.getD p.1 Tree.null, ys.getD p.2 Tree.null, p.2))).map
            (fun q => q.2.2) := by
          intro hcon
          apply hmem
          rw [List.map_map] at hcon
          exact hcon
        have hfk := hfother k hknotps
        have hnone : partnerIdx (xs.map objectHash) (ys.map objectHash) k = none := by
          cases hpk : partnerIdx (xs.map objectHash) (ys.map objectHash) k with
          | none => rfl
          | some i =>
              exfalso
              apply hmem
              have hik : (i, k) ∈ matchedPairs (xs.map objectHash) (ys.map objectHash) :=
                mem_matchedPairs.mpr ⟨by simpa using hklen, hpk⟩
              exact List.mem_map_of_mem Prod.snd hik
        have hcurk : (((List.range ys.length).map
            (fun j => match partnerIdx (xs.map objectHash) (ys.map objectHash) j with
              | some i => xs.getD i Tree.null
              | none => ys.getD j Tree.null)))[k]? = some (ys.getD k Tree.null) := by
          rw [List.getElem?_map, List.getElem?_range hklen, option_map_some]
          rw [hnone]
        have hp1 : pz.1 = ys.getD k Tree.null :=
          Option.some.inj (hk1.symm.trans (hfk.trans hcurk))
        have hykmem : ys.getD k Tree.null ∈ ys := by
          have h3 : ys[k]? = some (ys.getD k Tree.null) := getElem?_getD hklen
          exact List.getElem?_mem h3
        rw [hp1, hy2]
        exact eqv_refl (wf_list_mem hwb hykmem)

theorem roundtrip_scalar (a b : Tree)
    (hd : diff a b = if scalarEq a b then [] else [Op.replace [] a b])
    (he : eqv a b = scalarEq a b)
    (hwa : wf a = true) (hwb : wf b = true) :
    ∃ c, applyPatch a (diff a b) = .ok c ∧ eqv c b = true := by
  rw [hd]
  by_cases hsc : scalarEq a b = true
  · rw [if_pos hsc, applyPatch]
    exact ⟨a, rfl, by rw [he]; exact hsc⟩
  · rw [if_neg hsc]
    have hstep : applyOp a (Op.replace [] a b) = .ok b := by
      rw [applyOp, applyAt]
      rw [if_pos (eqv_refl hwa)]
    refine ⟨b, ?_, eqv_refl hwb⟩
    rw [applyPatch, hstep]
    rfl

theorem roundtrip_aux : ∀ (N : Nat) (a b : Tree), sizeOf b < N →
    wf a = true → wf b = true →
    ∃ c, applyPatch a (diff a b) = .ok c ∧ eqv c b = true := by
  intro N
  induction N using Nat.strong_induction_on with
  | _ N ih =>
    intro a b hsz hwa hwb
    match a, b with
    | .map akvs, .map bkvs =>
        have hszb : ∀ p ∈ bkvs, sizeOf p.2 < sizeOf (Tree.map bkvs) := by
          intro p hp
          have h1 := List.sizeOf_lt_of_mem hp
          have h2 := sizeOf_snd_le p
          simp at *
          omega
        exact roundtrip_map (sizeOf (Tree.map bkvs))
          (fun a2 b2 h hw1 hw2 => ih (sizeOf (Tree.map bkvs)) hsz a2 b2 h hw1 hw2)
          akvs bkvs hszb hwa hwb
    | .list xs, .list ys =>
        have hszy : ∀ y ∈ ys, sizeOf y < sizeOf (Tree.list ys) := by
          intro y hy
          have h1 := List.sizeOf_lt_of_mem hy
          simp
          omega
        exact roundtrip_list (sizeOf (Tree.list ys))
          (fun a2 b2 h hw1 hw2 => ih (sizeOf (Tree.list ys)) hsz a2 b2 h hw1 hw2)
          xs ys hszy hwa hwb
    | .null, .null =>
        exact roundtrip_scalar _ _
          (by rw [diff] <;> intro u v h1 h2 <;> simp at h1 h2)
          (by rw [eqv] <;> intro u v h1 h2 <;> simp at h1 h2)
          hwa hwb
    | .null, .bool y =>
        exact roundtrip_scalar _ _
          (by rw [diff] <;> intro u v h1 h2 <;> simp at h1 h2)
          (by rw [eqv] <;> intro u v h1 h2 <;> simp at h1 h2)
          hwa hwb
    | .null, .num y =>
        exact roundtrip_scalar _ _
          (by rw [diff] <;> intro u v h1 h2 <;> simp at h1 h2)
          (by rw [eqv] <;> intro u v h1 h2 <;> simp at h1 h2)
          hwa hwb
    | .null, .str y =>
        exact roundtrip_scalar _ _
          (by rw [diff] <;> intro u v h1 h2 <;> simp at h1 h2)
          (by rw [eqv] <;> intro u v h1 h2 <;> simp at h1 h2)
          hwa hwb
    | .null, .map bk =>
        exact roundtrip_scalar _ _
          (by rw [diff] <;> intro u v h1 h2 <;> simp at h1 h2)
          (by rw [eqv] <;> intro u v h1 h2 <;> simp at h1 h2)
          hwa hwb
    | .null, .list bl =>
        exact roundtrip_scalar _ _
          (by rw [diff] <;> intro u v h1 h2 <;> simp at h1 h2)
          (by rw [eqv] <;> intro u v h1 h2 <;> simp at h1 h2)
          hwa hwb
    | .bool x, .null =>
        exact roundtrip_scalar _ _
          (by rw [diff] <;> intro u v h1 h2 <;> simp at h1 h2)
          (by rw [eqv] <;> intro u v h1 h2 <;> simp at h1 h2)
          hwa hwb
    | .bool x, .bool y =>
        exact roundtrip_scalar _ _
          (by rw [diff] <;> intro u v h1 h2 <;> simp at h1 h2)
          (by rw [eqv] <;> intro u v h1 h2 <;> simp at h1 h2)
          hwa hwb
    | .bool x, .num y =>
        exact roundtrip_scalar _ _
          (by rw [diff] <;> intro u v h1 h2 <;> simp at h1 h2)
          (by rw [eqv] <;> intro u v h1 h2 <;> simp at h1 h2)
          hwa hwb
    | .bool x, .str y =>
        exact roundtrip_scalar _ _
          (by rw [diff] <;> intro u v h1 h2 <;> simp at h1 h2)
          (by rw [eqv] <;> intro u v h1 h2 <;> simp at h1 h2)
          hwa hwb
    | .bool x, .map bk =>
        exact roundtrip_scalar _ _
          (by rw [diff] <;> intro u v h1 h2 <;> simp at h1 h2)
          (by rw [eqv] <;> intro u v h1 h2 <;> simp at h1 h2)
          hwa hwb
    | .bool x, .list bl =>
        exact roundtrip_scalar _ _
          (by rw [diff] <;> intro u v h1 h2 <;> simp at h1 h2)
          (by rw [eqv] <;> intro u v h1 h2 <;> simp at h1 h2)
          hwa hwb
    | .num x, .null =>
        exact roundtrip_scalar _ _
          (by rw [diff] <;> intro u v h1 h2 <;> simp at h1 h2)
          (by rw [eqv] <;> intro u v h1 h2 <;> simp at h1 h2)
          hwa hwb
    | .num x, .bool y =>
        exact roundtrip_scalar _ _
          (by rw [diff] <;> intro u v h1 h2 <;> simp at h1 h2)
          (by rw [eqv] <;> intro u v h1 h2 <;> simp at h1 h2)
          hwa hwb
    | .num x, .num y =>
        exact roundtrip_scalar _ _
          (by rw [diff] <;> intro u v h1 h2 <;> simp at h1 h2)
          (by rw [eqv] <;> intro u v h1 h2 <;> simp at h1 h2)
          hwa hwb
    | .num x, .str y =>
        exact roundtrip_scalar _ _
          (by rw [diff] <;> intro u v h1 h2 <;> simp at h1 h2)
          (by rw [eqv] <;> intro u v h1 h2 <;> simp at h1 h2)
          hwa hwb
    | .num x, .map bk =>
        exact roundtrip_scalar _ _
          (by rw [diff] <;> intro u v h1 h2 <;> simp at h1 h2)
          (by rw [eqv] <;> intro u v h1 h2 <;> simp at h1 h2)
          hwa hwb
    | .num x, .list bl =>
        exact roundtrip_scalar _ _
          (by rw [diff] <;> intro u v h1 h2 <;> simp at h1 h2)
          (by rw [eqv] <;> intro u v h1 h2 <;> simp at h1 h2)
          hwa hwb
    | .str x, .null =>
        exact roundtrip_scalar _ _
          (by rw [diff] <;> intro u v h1 h2 <;> simp at h1 h2)
          (by rw [eqv] <;> intro u v h1 h2 <;> simp at h1 h2)
          hwa hwb
    | .str x, .bool y =>
        exact roundtrip_scalar _ _
          (by rw [diff] <;> intro u v h1 h2 <;> simp at h1 h2)
          (by rw [eqv] <;> intro u v h1 h2 <;> simp at h1 h2)
          hwa hwb
    | .str x, .num y =>
        exact roundtrip_scalar _ _
          (by rw [diff] <;> intro u v h1 h2 <;> simp at h1 h2)
          (by rw [eqv] <;> intro u v h1 h2 <;> simp at h1 h2)
          hwa hwb
    | .str x, .str y =>
        exact roundtrip_scalar _ _
          (by rw [diff] <;> intro u v h1 h2 <;> simp at h1 h2)
          (by rw [eqv] <;> intro u v h1 h2 <;> simp at h1 h2)
          hwa hwb
    | .str x, .map bk =>
        exact roundtrip_scalar _ _
          (by rw [diff] <;> intro u v h1 h2 <;> simp at h1 h2)
          (by rw [eqv] <;> intro u v h1 h2 <;> simp at h1 h2)
          hwa hwb
    | .str x, .list bl =>
        exact roundtrip_scalar _ _
          (by rw [diff] <;> intro u v h1 h2 <;> simp at h1 h2)
          (by rw [eqv] <;> intro u v h1 h2 <;> simp at h1 h2)
          hwa hwb
    | .map ak, .null =>
        exact roundtrip_scalar _ _
          (by rw [diff] <;> intro u v h1 h2 <;> simp at h1 h2)
          (by rw [eqv] <;> intro u v h1 h2 <;> simp at h1 h2)
          hwa hwb
    | .map ak, .bool y =>
        exact roundtrip_scalar _ _
          (by rw [diff] <;> intro u v h1 h2 <;> simp at h1 h2)
          (by rw [eqv] <;> intro u v h1 h2 <;> simp at h1 h2)
          hwa hwb
    | .map ak, .num y =>
        exact roundtrip_scalar _ _
          (by rw [diff] <;> intro u v h1 h2 <;> simp at h1 h2)
          (by rw [eqv] <;> intro u v h1 h2 <;> simp at h1 h2)
          hwa hwb
    | .map ak, .str y =>
        exact roundtrip_scalar _ _
          (by rw [diff] <;> intro u v h1 h2 <;> simp at h1 h2)
          (by rw [eqv] <;> intro u v h1 h2 <;> simp at h1 h2)
          hwa hwb
    | .map ak, .list bl =>
        exact roundtrip_scalar _ _
          (by rw [diff] <;> intro u v h1 h2 <;> simp at h1 h2)
          (by rw [eqv] <;> intro u v h1 h2 <;> simp at h1 h2)
          hwa hwb
    | .list al, .null =>
        exact roundtrip_scalar _ _
          (by rw [diff] <;> intro u v h1 h2 <;> simp at h1 h2)
          (by rw [eqv] <;> intro u v h1 h2 <;> simp at h1 h2)
          hwa hwb
    | .list al, .bool y =>
        exact roundtrip_scalar _ _
          (by rw [diff] <;> intro u v h1 h2 <;> simp at h1 h2)
          (by rw [eqv] <;> intro u v h1 h2 <;> simp at h1 h2)
          hwa hwb
    | .list al, .num y =>
        exact roundtrip_scalar _ _
          (by rw [diff] <;> intro u v h1 h2 <;> simp at h1 h2)
          (by rw [eqv] <;> intro u v h1 h2 <;> simp at h1 h2)
          hwa hwb
    | .list al, .str y =>
        exact roundtrip_scalar _ _
          (by rw [diff] <;> intro u v h1 h2 <;> simp at h1 h2)
          (by rw [eqv] <;> intro u v h1 h2 <;> simp at h1 h2)
          hwa hwb
    | .list al, .map bk =>
        exact roundtrip_scalar _ _
          (by rw [diff] <;> intro u v h1 h2 <;> simp at h1 h2)
          (by rw [eqv] <;> intro u v h1 h2 <;> simp at h1 h2)
          hwa hwb

/-- C1: the diff/apply roundtrip (spec §8, `apply(a, diff(a,b)) == b`): for
all well-formed trees `a` and `b` (maps have unique keys, the spec §3
invariant), applying the patch produced by `diff a b` to `a` succeeds and
reconstructs `b` up to JS deep equality (`eqv`, which ignores map key
insertion order). The removes, moves, adds and nested-diff phases of the
list strategy and the per-key recursion of the map strategy replay exactly
against the tree they were computed from. The diff engine is modelled from
spec §4.1-4.3 because the configured `jsondiffpatch` instance
(`api.ts:24-27`) is third-party library code not present in the
repository. -/
theorem apply_diff_roundtrip (a b : Tree) (hwa : wf a = true) (hwb : wf b = true) :
    ∃ c, applyPatch a (diff a b) = .ok c ∧ eqv c b = true :=
  roundtrip_aux (sizeOf b + 1) a b (Nat.lt_succ_self _) hwa hwb

/-- Witness for C1 at concrete trees: a two-element list diffed against a
reordered, extended variant (exercising the remove, move, add and recursion
phases of the list diff). -/
theorem apply_diff_roundtrip_witness :
    wf (Tree.list [.num 1, .num 2]) = true ∧
    wf (Tree.list [.num 2, .num 3, .num 1]) = true ∧
    ∃ c, applyPatch (Tree.list [.num 1, .num 2])
        (diff (Tree.list [.num 1, .num 2]) (Tree.list [.num 2, .num 3, .num 1]))
      = .ok c ∧ eqv c (Tree.list [.num 2, .num 3, .num 1]) = true :=
  ⟨by simp [wf], by simp [wf],
    apply_diff_roundtrip (Tree.list [.num 1, .num 2])
      (Tree.list [.num 2, .num 3, .num 1]) (by simp [wf]) (by simp [wf])⟩

end JsonVersioning
